import Mathlib

/-!
Verification of the search-engine core of the `ai-bca` repository.

The development shallowly embeds, in Lean, the parts of the code the
claims speak about:

* `src/lab2/nim_game.py` — the Nim game rules (`NimGameState`);
* `src/lab1/search_problem.py` and `src/lab2/gamesearch_problem.py` —
  the `StateNode` abstraction (equality, hashing, `get_as_root_node`);
* `src/lab1/search_algorithms.py` — the frontier strategies
  (`DepthFirstSearch`, `UniformCostSearch` with the `heapq` priority
  queue) and the `TreeSearchAlgorithm.search` /
  `GraphSearchAlgorithm.search` loops, modelled as fuel-indexed
  functions that also record a trace of the events of a run;
* `src/lab2/game_algorithms.py` — the Minimax and Alpha-Beta game
  search agents.  Their `pick_action` bodies are unimplemented stubs in
  the repository, so those two algorithms are modelled from the
  specification instead (fail-soft alpha-beta over the depth-limited
  game tree); the definitions say so in their doc comments.

Python `int`/`float` values are embedded as `Int` (the algorithms only
compare, add and take min/max of them); `float('inf')` cutoffs are
embedded as `WithTop Int`, and the infinite alpha/beta window of game
search as `WithBot (WithTop Int)`.
-/

/-! ## Nim (`src/lab2/nim_game.py`)

A `NimAction` is a pair `(stones, pile)` of Python ints.  The board is
the tuple of pile sizes; `move_limits` is the optional class-level
tuple of permitted stone counts, embedded as an explicit parameter. -/

/-- `NimAction(stones, pile)` from `nim_game.py`: `.1` is `stones`, `.2` is `pile`. -/
abbrev NimAction : Type := Int × Int

/-- Python `range(1, max_stones+1)` as a list of ints. -/
def stonesRange (maxStones : Int) : List Int :=
  (List.range maxStones.toNat).map (fun (k : Nat) => (k : Int) + 1)

/-- The test `NimGameState.move_limits == None or stones in NimGameState.move_limits`
from `nim_game.py` (both `is_legal_action` and `get_all_actions` use it). -/
def moveLimitsOk (moveLimits : Option (List Int)) (stones : Int) : Bool :=
  match moveLimits with
  | none => true
  | some limits => limits.contains stones

/-- `NimGameState.is_legal_action` (`src/lab2/nim_game.py`, lines 165-169).
The board access `self.board[action.pile]` is guarded by the range check,
so it is embedded with `getD`. -/
def nimIsLegalAction (moveLimits : Option (List Int)) (board : List Int)
    (a : NimAction) : Bool :=
  moveLimitsOk moveLimits a.1
    && (decide (0 ≤ a.2) && decide (a.2 < (board.length : Int)))
    && (decide (a.1 ≤ board.getD a.2.toNat 0) && decide (0 < a.1))

/-- `NimGameState.get_all_actions` (`src/lab2/nim_game.py`, lines 171-182):
for each pile (in order of `enumerate(self.board)`) and each
`stones in range(1, max_stones+1)`, keep `NimAction(stones, pile)` when
permitted by `move_limits`. -/
def nimGetAllActions (moveLimits : Option (List Int)) (board : List Int) :
    List NimAction :=
  (List.range board.length).flatMap (fun pile =>
    ((stonesRange (board.getD pile 0)).filter
      (fun stones => moveLimitsOk moveLimits stones)).map
      (fun stones => (stones, (pile : Int))))

theorem mem_stonesRange (m : Int) (s : Int) :
    s ∈ stonesRange m ↔ 1 ≤ s ∧ s ≤ m := by
  unfold stonesRange
  constructor
  · intro h
    obtain ⟨k, hk, rfl⟩ := List.mem_map.1 h
    have hk2 := List.mem_range.1 hk
    omega
  · rintro ⟨h1, h2⟩
    refine List.mem_map.2 ⟨(s - 1).toNat, List.mem_range.2 (by omega), by omega⟩

/-- **C10.**  For every Nim state (board and `move_limits` configuration)
and every action `a`, `a` is an element of `get_all_actions()` iff
`is_legal_action(a)` returns `True`: the pile index is in range, the
stone count is positive, at most the pile's contents, and permitted by
`move_limits` when it is set. -/
theorem nim_get_all_actions_iff_legal
    (moveLimits : Option (List Int)) (board : List Int) (a : NimAction) :
    a ∈ nimGetAllActions moveLimits board ↔
      nimIsLegalAction moveLimits board a = true := by
  unfold nimGetAllActions nimIsLegalAction
  simp only [List.mem_flatMap, List.mem_map, List.mem_filter, List.mem_range,
    Bool.and_eq_true, decide_eq_true_eq]
  constructor
  · rintro ⟨pile, hpile, stones, ⟨hsr, hml⟩, rfl⟩
    rw [mem_stonesRange] at hsr
    have hcast : ((pile : Int)).toNat = pile := by omega
    refine ⟨⟨hml, ?_, ?_⟩, ?_, ?_⟩
    · omega
    · show (pile : Int) < (board.length : Int)
      exact_mod_cast hpile
    · rw [hcast]; exact hsr.2
    · exact hsr.1
  · rintro ⟨⟨hml, hp0, hplen⟩, hle, hpos⟩
    refine ⟨a.2.toNat, ?_, a.1, ⟨?_, ?_⟩, ?_⟩
    · omega
    · rw [mem_stonesRange]; exact ⟨hpos, hle⟩
    · exact hml
    · have : ((a.2.toNat : Int)) = a.2 := by omega
      rw [this]

/-! ## `StateNode` (`src/lab1/search_problem.py`, `src/lab2/gamesearch_problem.py`)

A node pairs the state's features with the search-tree context: parent,
last action, depth, and (goal search) the accumulated path cost or
(game search) the current player index.  `F` is the type of
`get_state_features()` values, `A` the action type. -/

/-- `StateNode` of `src/lab1/search_problem.py`: features plus
`parent`, `last_action`, `depth`, `path_cost`. -/
inductive SNode (F A : Type) : Type where
  | mk (features : F) (parent : Option (SNode F A)) (lastAction : Option A)
      (depth : Nat) (pathCost : Int)

/-- `StateNode` of `src/lab2/gamesearch_problem.py`: features plus
`parent`, `last_action`, `depth`, `current_player_index` (no path cost). -/
inductive GNode (F A : Type) : Type where
  | mk (features : F) (parent : Option (GNode F A)) (lastAction : Option A)
      (depth : Nat) (currentPlayerIndex : Nat)

def SNode.features : SNode F A → F
  | .mk f _ _ _ _ => f

def SNode.parent : SNode F A → Option (SNode F A)
  | .mk _ p _ _ _ => p

def SNode.lastAction : SNode F A → Option A
  | .mk _ _ la _ _ => la

def SNode.depth : SNode F A → Nat
  | .mk _ _ _ d _ => d

def SNode.pathCost : SNode F A → Int
  | .mk _ _ _ _ c => c

def GNode.features : GNode F A → F
  | .mk f _ _ _ _ => f

def GNode.parent : GNode F A → Option (GNode F A)
  | .mk _ p _ _ _ => p

def GNode.lastAction : GNode F A → Option A
  | .mk _ _ la _ _ => la

def GNode.depth : GNode F A → Nat
  | .mk _ _ _ d _ => d

def GNode.currentPlayerIndex : GNode F A → Nat
  | .mk _ _ _ _ i => i

/-- `StateNode.__eq__` (both labs): same concrete type (enforced here by
the common type `SNode F A`) and equal `get_state_features()`. -/
def snEq [DecidableEq F] (a b : SNode F A) : Bool :=
  decide (a.features = b.features)

/-- `StateNode.__hash__` (both labs): `hash(self.get_state_features())`,
with `h` standing for Python's hash on feature values. -/
def snHash (h : F → Int) (n : SNode F A) : Int :=
  h n.features

/-- `StateNode.__eq__` of `src/lab2/gamesearch_problem.py`. -/
def gnEq [DecidableEq F] (a b : GNode F A) : Bool :=
  decide (a.features = b.features)

/-- `StateNode.__hash__` of `src/lab2/gamesearch_problem.py`. -/
def gnHash (h : F → Int) (n : GNode F A) : Int :=
  h n.features

/-- `StateNode.get_as_root_node` (`src/lab1/search_problem.py`, lines
146-155): `copy(self)` with `parent = None`, `last_action = None`,
`path_cost = 0.0`, `depth = 0`. -/
def snAsRoot (n : SNode F A) : SNode F A :=
  .mk n.features none none 0 0

/-- `StateNode.get_as_root_node` (`src/lab2/gamesearch_problem.py`, lines
205-213): `copy(self)` with `parent = None`, `depth = 0`,
`last_action = None` (the current player index is part of the state and
is kept). -/
def gnAsRoot (n : GNode F A) : GNode F A :=
  .mk n.features none none 0 n.currentPlayerIndex

/-- **C8.**  For nodes of the same concrete type (goal-search and
game-search variants alike), `__eq__` is reflexive and symmetric, holds
iff the `get_state_features()` values are equal, implies equal hashes,
and never depends on `parent`, `depth` or `last_action` (or, for goal
search, `path_cost`). -/
theorem statenode_eq_consistent (F A : Type) [DecidableEq F] (h : F → Int)
    (a b : SNode F A) (g gb : GNode F A) :
    (snEq a a = true)
    ∧ (snEq a b = snEq b a)
    ∧ (snEq a b = true ↔ a.features = b.features)
    ∧ (snEq a b = true → snHash h a = snHash h b)
    ∧ (∀ p la d c, snEq (SNode.mk a.features p la d c) b = snEq a b)
    ∧ (gnEq g g = true)
    ∧ (gnEq g gb = gnEq gb g)
    ∧ (gnEq g gb = true ↔ g.features = gb.features)
    ∧ (gnEq g gb = true → gnHash h g = gnHash h gb)
    ∧ (∀ p la d, gnEq (GNode.mk g.features p la d g.currentPlayerIndex) gb
        = gnEq g gb) := by
  refine ⟨?_, ?_, ?_, ?_, ?_, ?_, ?_, ?_, ?_, ?_⟩
  · simp [snEq]
  · simp [snEq]; constructor <;> (intro hh; exact hh.symm)
  · simp [snEq]
  · intro hh
    unfold snEq at hh
    unfold snHash
    rw [decide_eq_true_eq] at hh
    rw [hh]
  · intro p la d c
    unfold snEq
    rfl
  · simp [gnEq]
  · simp [gnEq]; constructor <;> (intro hh; exact hh.symm)
  · simp [gnEq]
  · intro hh
    unfold gnEq at hh
    unfold gnHash
    rw [decide_eq_true_eq] at hh
    rw [hh]
  · intro p la d
    unfold gnEq
    rfl

/-- **C9.**  `get_as_root_node` on any node `n` yields a node with no
parent, no last action, depth `0`, path cost `0` (goal-search variant),
and the same state features as `n`; it builds a new value (so `n`
itself is untouched), and whenever `n` has a parent the result is a
different node value from `n`. -/
theorem get_as_root_node_spec (F A : Type) (n : SNode F A) (g : GNode F A) :
    ((snAsRoot n).parent = none)
    ∧ ((snAsRoot n).lastAction = none)
    ∧ ((snAsRoot n).depth = 0)
    ∧ ((snAsRoot n).pathCost = 0)
    ∧ ((snAsRoot n).features = n.features)
    ∧ (∀ p, n.parent = some p → snAsRoot n ≠ n)
    ∧ ((gnAsRoot g).parent = none)
    ∧ ((gnAsRoot g).lastAction = none)
    ∧ ((gnAsRoot g).depth = 0)
    ∧ ((gnAsRoot g).currentPlayerIndex = g.currentPlayerIndex)
    ∧ ((gnAsRoot g).features = g.features)
    ∧ (∀ p, g.parent = some p → gnAsRoot g ≠ g) := by
  refine ⟨rfl, rfl, rfl, rfl, rfl, ?_, rfl, rfl, rfl, rfl, rfl, ?_⟩
  · intro p hp heq
    have : (snAsRoot n).parent = n.parent := by rw [heq]
    rw [hp] at this
    simp [snAsRoot, SNode.parent] at this
  · intro p hp heq
    have : (gnAsRoot g).parent = g.parent := by rw [heq]
    rw [hp] at this
    simp [gnAsRoot, GNode.parent] at this

/-! ## The goal-search loops (`src/lab1/search_algorithms.py`)

The search algorithms are mixins over a frontier *strategy* providing
`enqueue`/`dequeue` and the Python truthiness test `while self.frontier`
(the `Queue`-based BFS frontier is always truthy, which is why the loop
re-checks `if current_node is None`).  A strategy is embedded as a
structure; the two loop bodies (`TreeSearchAlgorithm.search`, lines
92-135, and `GraphSearchAlgorithm.search`, lines 243-281) as
fuel-indexed functions that also record the observable events of the
run: every enqueue call, every dequeue, every `gui_callback_fn` call
with its result, and every expansion with the list of children on which
`enqueue` was called. -/

/-- A goal-search problem: `is_goal_state`, `get_all_actions`,
`get_next_state` (split into the feature transition and the transition
cost added to `path_cost`), all on feature values. -/
structure SProblem (F A : Type) where
  goal : F → Bool
  actions : F → List A
  next : F → A → F
  stepCost : F → A → Int

/-- `get_next_state`: the child node of `n` under action `a` — parent is
`n`, last action `a`, depth and path cost extended. -/
def mkChild (P : SProblem F A) (n : SNode F A) (a : A) : SNode F A :=
  .mk (P.next n.features a) (some n) (some a) (n.depth + 1)
    (n.pathCost + P.stepCost n.features a)

/-- The children of `n`, one per legal action, in action order. -/
def treeChildren (P : SProblem F A) (n : SNode F A) : List (SNode F A) :=
  (P.actions n.features).map (mkChild P n)

/-- `next_state != current_node.parent`: `StateNode.__ne__` against the
parent, which compares `get_state_features()` (and is `True` when the
parent is `None`). -/
def neParentB [DecidableEq F] (c : SNode F A) (n : SNode F A) : Bool :=
  match n.parent with
  | none => true
  | some p => decide (¬ (c.features = p.features))

/-- A frontier strategy: the frontier type, the empty frontier built by
`__init__`, Python truthiness of the frontier object, `enqueue` (with
cutoff) and `dequeue` (which returns `None` on an empty frontier). -/
structure Strategy (F A : Type) : Type 1 where
  Fr : Type
  emptyFrontier : Fr
  truthy : Fr → Bool
  enq : Fr → SNode F A → WithTop Int → Fr
  deq : Fr → Option (SNode F A × Fr)

/-- One observable event of a search run. -/
inductive SEv (F A : Type) : Type where
  | rootEnq (n : SNode F A)
  | deqEv (n : SNode F A)
  | cbCall (n : SNode F A) (res : Bool)
  | expandEv (n : SNode F A) (enqd : List (SNode F A))

/-- Why a run of `search` ended. -/
inductive ExitKind : Type where
  | goalFound
  | stopped
  | exhausted
  | fuelOut
  deriving DecidableEq

/-- The outcome of a run of `search`: the Python return value, the exit
kind, the event trace, and the values of `self.total_extends` and
`self.total_enqueues` after the run. -/
structure SearchRun (F A : Type) where
  result : Option (SNode F A)
  reason : ExitKind
  events : List (SEv F A)
  totalExtends : Nat
  totalEnqueues : Nat

/-- The expansion of `TreeSearchAlgorithm.search` (lines 124-134): for
each action of the dequeued node, `enqueue` is called on the child
unless it equals the node's parent; `total_enqueues` is incremented per
call and `total_extends` once if any call happened. -/
def treeEnqueued [DecidableEq F] (P : SProblem F A) (n : SNode F A) :
    List (SNode F A) :=
  (treeChildren P n).filter (fun c => neParentB c n)

/-- The loop of `TreeSearchAlgorithm.search` (lines 114-135), fuel-indexed. -/
def treeLoop [DecidableEq F] (P : SProblem F A) (st : Strategy F A)
    (cb : SNode F A → Bool) (cutoff : WithTop Int) :
    Nat → st.Fr → Nat → Nat → SearchRun F A
  | 0, _, ext, enq => ⟨none, .fuelOut, [], ext, enq⟩
  | fuel + 1, fr, ext, enq =>
    if st.truthy fr = false then ⟨none, .exhausted, [], ext, enq⟩
    else
      match st.deq fr with
      | none => ⟨none, .exhausted, [], ext, enq⟩
      | some (n, fr1) =>
        if P.goal n.features then ⟨some n, .goalFound, [.deqEv n], ext, enq⟩
        else if cb n then
          ⟨none, .stopped, [.deqEv n, .cbCall n true], ext, enq⟩
        else
          let enqd := treeEnqueued P n
          let fr2 := enqd.foldl (fun f c => st.enq f c cutoff) fr1
          let r := treeLoop P st cb cutoff fuel fr2
            (ext + if enqd.isEmpty then 0 else 1) (enq + enqd.length)
          ⟨r.result, r.reason,
            .deqEv n :: .cbCall n false :: .expandEv n enqd ::
              (enqd.map (fun c => SEv.cbCall c (cb c)) ++ r.events),
            r.totalExtends, r.totalEnqueues⟩

/-- `TreeSearchAlgorithm.search`: enqueue the initial state (with the
default `INF` cutoff and no counter update), then loop. -/
def treeSearch [DecidableEq F] (P : SProblem F A) (st : Strategy F A)
    (cb : SNode F A → Bool) (cutoff : WithTop Int) (n0 : SNode F A)
    (fuel : Nat) (ext0 enq0 : Nat) : SearchRun F A :=
  let r := treeLoop P st cb cutoff fuel (st.enq st.emptyFrontier n0 ⊤) ext0 enq0
  ⟨r.result, r.reason, .rootEnq n0 :: r.events, r.totalExtends, r.totalEnqueues⟩

/-- The expansion of `GraphSearchAlgorithm.search` (lines 269-280): like
the tree expansion, but a child is also skipped when its state is in
`ext_filter`, and is added to `ext_filter` at the moment it is
enqueued — also filtering later same-state children of the *same*
expansion.  Returns the new frontier, the new filter, and the list of
children on which `enqueue` was called, in order. -/
def graphExpand [DecidableEq F] (st : Strategy F A) (cutoff : WithTop Int)
    (n : SNode F A) :
    List (SNode F A) → st.Fr → List F → st.Fr × List F × List (SNode F A)
  | [], fr, flt => (fr, flt, [])
  | c :: cs, fr, flt =>
    if neParentB c n && !(flt.contains c.features) then
      let out := graphExpand st cutoff n cs (st.enq fr c cutoff)
        (c.features :: flt)
      (out.1, out.2.1, c :: out.2.2)
    else
      graphExpand st cutoff n cs fr flt

/-- The loop of `GraphSearchAlgorithm.search` (lines 256-281),
fuel-indexed; `flt` is `ext_filter` as the list of feature values added
so far. -/
def graphLoop [DecidableEq F] (P : SProblem F A) (st : Strategy F A)
    (cb : SNode F A → Bool) (cutoff : WithTop Int) :
    Nat → st.Fr → List F → Nat → Nat → SearchRun F A
  | 0, _, _, ext, enq => ⟨none, .fuelOut, [], ext, enq⟩
  | fuel + 1, fr, flt, ext, enq =>
    if st.truthy fr = false then ⟨none, .exhausted, [], ext, enq⟩
    else
      match st.deq fr with
      | none => ⟨none, .exhausted, [], ext, enq⟩
      | some (n, fr1) =>
        if P.goal n.features then ⟨some n, .goalFound, [.deqEv n], ext, enq⟩
        else if cb n then
          ⟨none, .stopped, [.deqEv n, .cbCall n true], ext, enq⟩
        else
          let out := graphExpand st cutoff n (treeChildren P n) fr1 flt
          let enqd := out.2.2
          let r := graphLoop P st cb cutoff fuel out.1 out.2.1
            (ext + if enqd.isEmpty then 0 else 1) (enq + enqd.length)
          ⟨r.result, r.reason,
            .deqEv n :: .cbCall n false :: .expandEv n enqd ::
              (enqd.map (fun c => SEv.cbCall c (cb c)) ++ r.events),
            r.totalExtends, r.totalEnqueues⟩

/-- `GraphSearchAlgorithm.search`: create the empty `ext_filter`,
enqueue the initial state (not recorded in the filter, no counter
update), then loop. -/
def graphSearch [DecidableEq F] (P : SProblem F A) (st : Strategy F A)
    (cb : SNode F A → Bool) (cutoff : WithTop Int) (n0 : SNode F A)
    (fuel : Nat) (ext0 enq0 : Nat) : SearchRun F A :=
  let r := graphLoop P st cb cutoff fuel (st.enq st.emptyFrontier n0 ⊤) []
    ext0 enq0
  ⟨r.result, r.reason, .rootEnq n0 :: r.events, r.totalExtends, r.totalEnqueues⟩

/-- `DepthFirstSearch` (lines 138-163): a list frontier; `enqueue`
appends when `depth < cutoff`; `dequeue` pops the last element and
returns `None` on an empty frontier. -/
def dfsStrategy (F A : Type) [DecidableEq F] : Strategy F A where
  Fr := List (SNode F A)
  emptyFrontier := []
  truthy fr := !fr.isEmpty
  enq fr n cutoff := if ((n.depth : Int) : WithTop Int) < cutoff then fr ++ [n] else fr
  deq fr :=
    match fr.getLast? with
    | none => none
    | some x => some (x, fr.dropLast)

/-! Event-trace measurements used to state the claims. -/

/-- The features of every node passed to `enqueue` during a run, the
initial state's root enqueue included. -/
def allEnqFeatures (evs : List (SEv F A)) : List F :=
  evs.flatMap (fun e =>
    match e with
    | .rootEnq n => [n.features]
    | .expandEv _ enqd => enqd.map SNode.features
    | _ => [])

/-- The features of every node passed to `enqueue` as a *child* (the
root enqueue excluded). -/
def childEnqFeatures (evs : List (SEv F A)) : List F :=
  evs.flatMap (fun e =>
    match e with
    | .expandEv _ enqd => enqd.map SNode.features
    | _ => [])

/-- The number of `enqueue` calls recorded in a trace (root included). -/
def enqOpsCount (evs : List (SEv F A)) : Nat :=
  (allEnqFeatures evs).length

/-- The number of expansions recorded in a trace (a dequeued non-goal
node whose children were generated, whether or not any was enqueued). -/
def expandCount : List (SEv F A) → Nat :=
  List.countP (fun e =>
    match e with
    | .expandEv _ _ => true
    | _ => false)

/-- The number of expansions that enqueued at least one child. -/
def fruitfulExpandCount : List (SEv F A) → Nat :=
  List.countP (fun e =>
    match e with
    | .expandEv _ enqd => !enqd.isEmpty
    | _ => false)

theorem childEnqFeatures_append (l1 l2 : List (SEv F A)) :
    childEnqFeatures (l1 ++ l2) = childEnqFeatures l1 ++ childEnqFeatures l2 := by
  unfold childEnqFeatures
  exact List.flatMap_append l1 l2 _

theorem childEnqFeatures_cbMap (b : SNode F A → Bool) (l : List (SNode F A)) :
    childEnqFeatures (l.map (fun c => SEv.cbCall c (b c))) = [] := by
  induction l with
  | nil => rfl
  | cons c cs ih =>
    simp only [List.map_cons, List.flatMap_cons] at ih ⊢
    simpa using ih

theorem fruitfulExpandCount_append (l1 l2 : List (SEv F A)) :
    fruitfulExpandCount (l1 ++ l2)
      = fruitfulExpandCount l1 + fruitfulExpandCount l2 := by
  unfold fruitfulExpandCount
  exact List.countP_append _ _ _

theorem fruitfulExpandCount_cbMap (b : SNode F A → Bool) (l : List (SNode F A)) :
    fruitfulExpandCount (l.map (fun c => SEv.cbCall c (b c))) = 0 := by
  induction l with
  | nil => rfl
  | cons c cs ih =>
    simp only [List.map_cons, List.countP_cons] at ih ⊢
    simpa using ih

theorem childEnqFeatures_iter (n : SNode F A) (b : Bool) (enqd : List (SNode F A))
    (cbv : SNode F A → Bool) (evs : List (SEv F A)) :
    childEnqFeatures (SEv.deqEv n :: SEv.cbCall n b :: SEv.expandEv n enqd ::
        (enqd.map (fun c => SEv.cbCall c (cbv c)) ++ evs))
      = enqd.map SNode.features ++ childEnqFeatures evs := by
  have h1 : childEnqFeatures (F := F) (A := A)
      (SEv.deqEv n :: SEv.cbCall n b :: SEv.expandEv n enqd ::
        (enqd.map (fun c => SEv.cbCall c (cbv c)) ++ evs))
      = enqd.map SNode.features ++
        childEnqFeatures (enqd.map (fun c => SEv.cbCall c (cbv c)) ++ evs) := by
    simp [childEnqFeatures]
  rw [h1, childEnqFeatures_append, childEnqFeatures_cbMap]
  simp

theorem fruitfulExpandCount_iter (n : SNode F A) (b : Bool)
    (enqd : List (SNode F A)) (cbv : SNode F A → Bool) (evs : List (SEv F A)) :
    fruitfulExpandCount (SEv.deqEv n :: SEv.cbCall n b :: SEv.expandEv n enqd ::
        (enqd.map (fun c => SEv.cbCall c (cbv c)) ++ evs))
      = (if enqd.isEmpty then 0 else 1) + fruitfulExpandCount evs := by
  have h1 : fruitfulExpandCount (F := F) (A := A)
      (SEv.deqEv n :: SEv.cbCall n b :: SEv.expandEv n enqd ::
        (enqd.map (fun c => SEv.cbCall c (cbv c)) ++ evs))
      = fruitfulExpandCount (enqd.map (fun c => SEv.cbCall c (cbv c)) ++ evs)
        + (if !enqd.isEmpty then 1 else 0) := by
    simp [fruitfulExpandCount, List.countP_cons]
  rw [h1, fruitfulExpandCount_append, fruitfulExpandCount_cbMap]
  cases enqd <;> simp [Nat.add_comm]

theorem treeLoop_counters [DecidableEq F] (P : SProblem F A) (st : Strategy F A)
    (cb : SNode F A → Bool) (cutoff : WithTop Int) :
    ∀ fuel (fr : st.Fr) (ext enq : Nat),
      (treeLoop P st cb cutoff fuel fr ext enq).totalEnqueues
        = enq + (childEnqFeatures (treeLoop P st cb cutoff fuel fr ext enq).events).length
      ∧ (treeLoop P st cb cutoff fuel fr ext enq).totalExtends
        = ext + fruitfulExpandCount (treeLoop P st cb cutoff fuel fr ext enq).events := by
  intro fuel
  induction fuel with
  | zero =>
    intro fr ext enq
    simp [treeLoop, childEnqFeatures, fruitfulExpandCount]
  | succ fuel ih =>
    intro fr ext enq
    rw [treeLoop]
    by_cases h1 : st.truthy fr = false
    · rw [if_pos h1]
      simp [childEnqFeatures, fruitfulExpandCount]
    · rw [if_neg h1]
      cases hdeq : st.deq fr with
      | none => simp [childEnqFeatures, fruitfulExpandCount]
      | some p =>
        obtain ⟨n, fr1⟩ := p
        dsimp only
        by_cases hgoal : P.goal n.features = true
        · rw [if_pos hgoal]
          simp [childEnqFeatures, fruitfulExpandCount]
        · rw [if_neg hgoal]
          by_cases hcb : cb n = true
          · rw [if_pos hcb]
            simp [childEnqFeatures, fruitfulExpandCount]
          · rw [if_neg hcb]
            have hrec := ih ((treeEnqueued P n).foldl (fun f c => st.enq f c cutoff) fr1)
              (ext + if (treeEnqueued P n).isEmpty then 0 else 1)
              (enq + (treeEnqueued P n).length)
            rcases hrec with ⟨hq, hx⟩
            constructor
            · simp only [childEnqFeatures_iter, hq]
              simp only [List.length_append, List.length_map]
              omega
            · simp only [fruitfulExpandCount_iter, hx]
              omega

theorem graphLoop_counters [DecidableEq F] (P : SProblem F A) (st : Strategy F A)
    (cb : SNode F A → Bool) (cutoff : WithTop Int) :
    ∀ fuel (fr : st.Fr) (flt : List F) (ext enq : Nat),
      (graphLoop P st cb cutoff fuel fr flt ext enq).totalEnqueues
        = enq + (childEnqFeatures (graphLoop P st cb cutoff fuel fr flt ext enq).events).length
      ∧ (graphLoop P st cb cutoff fuel fr flt ext enq).totalExtends
        = ext + fruitfulExpandCount (graphLoop P st cb cutoff fuel fr flt ext enq).events := by
  intro fuel
  induction fuel with
  | zero =>
    intro fr flt ext enq
    simp [graphLoop, childEnqFeatures, fruitfulExpandCount]
  | succ fuel ih =>
    intro fr flt ext enq
    rw [graphLoop]
    by_cases h1 : st.truthy fr = false
    · rw [if_pos h1]
      simp [childEnqFeatures, fruitfulExpandCount]
    · rw [if_neg h1]
      cases hdeq : st.deq fr with
      | none => simp [childEnqFeatures, fruitfulExpandCount]
      | some p =>
        obtain ⟨n, fr1⟩ := p
        dsimp only
        by_cases hgoal : P.goal n.features = true
        · rw [if_pos hgoal]
          simp [childEnqFeatures, fruitfulExpandCount]
        · rw [if_neg hgoal]
          by_cases hcb : cb n = true
          · rw [if_pos hcb]
            simp [childEnqFeatures, fruitfulExpandCount]
          · rw [if_neg hcb]
            have hrec := ih (graphExpand st cutoff n (treeChildren P n) fr1 flt).1
              (graphExpand st cutoff n (treeChildren P n) fr1 flt).2.1
              (ext + if (graphExpand st cutoff n (treeChildren P n) fr1 flt).2.2.isEmpty then 0 else 1)
              (enq + (graphExpand st cutoff n (treeChildren P n) fr1 flt).2.2.length)
            rcases hrec with ⟨hq, hx⟩
            constructor
            · simp only [childEnqFeatures_iter, hq]
              simp only [List.length_append, List.length_map]
              omega
            · simp only [fruitfulExpandCount_iter, hx]
              omega

/-! Concrete problems used to exercise the loops on explicit inputs. -/

/-- A three-state cycle `0 → 1 → 2 → 0` with a single action, no goal. -/
def cycleProb : SProblem Nat Unit :=
  ⟨fun _ => false, fun _ => [()], fun f _ => (f + 1) % 3, fun _ _ => 1⟩

def rootNode0 : SNode Nat Unit := .mk 0 none none 0 0

/-- A graph-search run on the cycle, depth-first frontier, callback
always `False`, no cutoff. -/
def cycleGraphRun : SearchRun Nat Unit :=
  graphSearch cycleProb (dfsStrategy Nat Unit) (fun _ => false) ⊤ rootNode0 5 0 0

/-- A tree-search run on the cycle. -/
def cycleTreeRun : SearchRun Nat Unit :=
  treeSearch cycleProb (dfsStrategy Nat Unit) (fun _ => false) ⊤ rootNode0 6 0 0

/-- A two-state back-and-forth chain `0 → 1 → 0`, no goal: node `1`'s
only successor equals its parent, so its expansion enqueues nothing. -/
def chainProb : SProblem Nat Unit :=
  ⟨fun _ => false, fun _ => [()], fun f _ => 1 - f, fun _ _ => 1⟩

def chainTreeRun : SearchRun Nat Unit :=
  treeSearch chainProb (dfsStrategy Nat Unit) (fun _ => false) ⊤ rootNode0 5 0 0

/-- `0 → 1`, goal at `1`, and an observation callback that returns
`True` exactly on nodes with feature `1` — so its first `True` return
happens at the child-notification call, whose result the code ignores. -/
def goalChildProb : SProblem Nat Unit :=
  ⟨fun f => decide (f = 1), fun _ => [()], fun f _ => f + 1, fun _ _ => 1⟩

def cbIgnoredRun : SearchRun Nat Unit :=
  treeSearch goalChildProb (dfsStrategy Nat Unit)
    (fun n => decide (n.features = 1)) ⊤ rootNode0 3 0 0

/-- A run whose callback returns `True` on every node: the root is
dequeued, found non-goal, and the search stops without expanding it. -/
def stopTreeRun : SearchRun Nat Unit :=
  treeSearch chainProb (dfsStrategy Nat Unit) (fun _ => true) ⊤ rootNode0 3 0 0

/-- The number of observation-callback calls that returned `True` in a
trace. -/
def cbTrueCount (evs : List (SEv F A)) : Nat :=
  evs.countP (fun e =>
    match e with
    | .cbCall _ true => true
    | _ => false)

/-- The number of dequeued non-goal nodes in a trace. -/
def nonGoalDeqCount (P : SProblem F A) (evs : List (SEv F A)) : Nat :=
  evs.countP (fun e =>
    match e with
    | .deqEv n => !(P.goal n.features)
    | _ => false)

/-- **C6 (counterexample).**  On the two-state chain, a tree search from
a fresh agent performs two `enqueue` operations (the root's initial
enqueue and one child enqueue) but reports `total_enqueues = 1` — line
114 of `search_algorithms.py` does not count the root enqueue — and it
performs two expansions (node `1`'s expansion enqueues no child because
its only successor is its parent) but reports `total_extends = 1`. -/
theorem search_counters_claim_false :
    chainTreeRun.totalEnqueues = 1 ∧ enqOpsCount chainTreeRun.events = 2
    ∧ chainTreeRun.totalExtends = 1 ∧ expandCount chainTreeRun.events = 2
    ∧ chainTreeRun.reason = ExitKind.exhausted := by
  decide

/-- **C6 (amended).**  After any run of `TreeSearchAlgorithm.search` or
`GraphSearchAlgorithm.search`, `total_enqueues` has grown by the number
of enqueue calls made on generated children — the root's initial
enqueue is *not* counted — and `total_extends` has grown by the number
of expansions that enqueued at least one child (an expansion all of
whose successors were filtered out is not counted); both counters are
fields read by the caller after `search` returns. -/
theorem search_counters_amended (F A : Type) [DecidableEq F]
    (P : SProblem F A) (st : Strategy F A) (cb : SNode F A → Bool)
    (cutoff : WithTop Int) (n0 : SNode F A) (fuel ext0 enq0 : Nat) :
    ((treeSearch P st cb cutoff n0 fuel ext0 enq0).totalEnqueues
        = enq0 + (childEnqFeatures (treeSearch P st cb cutoff n0 fuel ext0 enq0).events).length
      ∧ (treeSearch P st cb cutoff n0 fuel ext0 enq0).totalExtends
        = ext0 + fruitfulExpandCount (treeSearch P st cb cutoff n0 fuel ext0 enq0).events)
    ∧ ((graphSearch P st cb cutoff n0 fuel ext0 enq0).totalEnqueues
        = enq0 + (childEnqFeatures (graphSearch P st cb cutoff n0 fuel ext0 enq0).events).length
      ∧ (graphSearch P st cb cutoff n0 fuel ext0 enq0).totalExtends
        = ext0 + fruitfulExpandCount (graphSearch P st cb cutoff n0 fuel ext0 enq0).events) := by
  constructor
  · have h := treeLoop_counters P st cb cutoff fuel
      (st.enq st.emptyFrontier n0 ⊤) ext0 enq0
    simpa [treeSearch, childEnqFeatures, fruitfulExpandCount] using h
  · have h := graphLoop_counters P st cb cutoff fuel
      (st.enq st.emptyFrontier n0 ⊤) [] ext0 enq0
    simpa [graphSearch, childEnqFeatures, fruitfulExpandCount] using h

theorem treeLoop_exhausted [DecidableEq F] (P : SProblem F A) (st : Strategy F A)
    (cb : SNode F A → Bool) (cutoff : WithTop Int) :
    ∀ fuel (fr : st.Fr) (ext enq : Nat),
      (treeLoop P st cb cutoff fuel fr ext enq).reason = ExitKind.exhausted →
      (treeLoop P st cb cutoff fuel fr ext enq).result = none
      ∧ ∀ n, SEv.deqEv n ∈ (treeLoop P st cb cutoff fuel fr ext enq).events →
          P.goal n.features = false := by
  intro fuel
  induction fuel with
  | zero =>
    intro fr ext enq hreason
    simp [treeLoop] at hreason
  | succ fuel ih =>
    intro fr ext enq hreason
    rw [treeLoop] at hreason ⊢
    by_cases h1 : st.truthy fr = false
    · rw [if_pos h1]
      simp
    · rw [if_neg h1] at hreason ⊢
      cases hdeq : st.deq fr with
      | none => simp [hdeq]
      | some p =>
        obtain ⟨n0, fr1⟩ := p
        rw [hdeq] at hreason
        dsimp only at hreason ⊢
        by_cases hgoal : P.goal n0.features = true
        · rw [if_pos hgoal] at hreason
          simp at hreason
        · rw [if_neg hgoal] at hreason ⊢
          by_cases hcb : cb n0 = true
          · rw [if_pos hcb] at hreason
            simp at hreason
          · rw [if_neg hcb] at hreason ⊢
            have hrec := ih ((treeEnqueued P n0).foldl (fun f c => st.enq f c cutoff) fr1)
              (ext + if (treeEnqueued P n0).isEmpty then 0 else 1)
              (enq + (treeEnqueued P n0).length) hreason
            refine ⟨hrec.1, ?_⟩
            intro n hmem
            simp only [List.mem_cons, List.mem_append, List.mem_map] at hmem
            rcases hmem with h | h | h | h | h
            · have : n = n0 := by
                simpa using h
              rw [this]
              simpa using hgoal
            · simp at h
            · simp at h
            · obtain ⟨c, _, hc⟩ := h
              simp at hc
            · exact hrec.2 n h

theorem graphLoop_exhausted [DecidableEq F] (P : SProblem F A) (st : Strategy F A)
    (cb : SNode F A → Bool) (cutoff : WithTop Int) :
    ∀ fuel (fr : st.Fr) (flt : List F) (ext enq : Nat),
      (graphLoop P st cb cutoff fuel fr flt ext enq).reason = ExitKind.exhausted →
      (graphLoop P st cb cutoff fuel fr flt ext enq).result = none
      ∧ ∀ n, SEv.deqEv n ∈ (graphLoop P st cb cutoff fuel fr flt ext enq).events →
          P.goal n.features = false := by
  intro fuel
  induction fuel with
  | zero =>
    intro fr flt ext enq hreason
    simp [graphLoop] at hreason
  | succ fuel ih =>
    intro fr flt ext enq hreason
    rw [graphLoop] at hreason ⊢
    by_cases h1 : st.truthy fr = false
    · rw [if_pos h1]
      simp
    · rw [if_neg h1] at hreason ⊢
      cases hdeq : st.deq fr with
      | none => simp [hdeq]
      | some p =>
        obtain ⟨n0, fr1⟩ := p
        rw [hdeq] at hreason
        dsimp only at hreason ⊢
        by_cases hgoal : P.goal n0.features = true
        · rw [if_pos hgoal] at hreason
          simp at hreason
        · rw [if_neg hgoal] at hreason ⊢
          by_cases hcb : cb n0 = true
          · rw [if_pos hcb] at hreason
            simp at hreason
          · rw [if_neg hcb] at hreason ⊢
            have hrec := ih (graphExpand st cutoff n0 (treeChildren P n0) fr1 flt).1
              (graphExpand st cutoff n0 (treeChildren P n0) fr1 flt).2.1
              (ext + if (graphExpand st cutoff n0 (treeChildren P n0) fr1 flt).2.2.isEmpty then 0 else 1)
              (enq + (graphExpand st cutoff n0 (treeChildren P n0) fr1 flt).2.2.length) hreason
            refine ⟨hrec.1, ?_⟩
            intro n hmem
            simp only [List.mem_cons, List.mem_append, List.mem_map] at hmem
            rcases hmem with h | h | h | h | h
            · have : n = n0 := by
                simpa using h
              rw [this]
              simpa using hgoal
            · simp at h
            · simp at h
            · obtain ⟨c, _, hc⟩ := h
              simp at hc
            · exact hrec.2 n h

/-- **C7.**  In every run of `TreeSearchAlgorithm.search` or
`GraphSearchAlgorithm.search` that ends because the frontier is
exhausted (the frontier tests falsy, or `dequeue` returns `None`), the
search returns `None` — a no-result value distinct from any success —
no dequeued node was a goal state, and no exception is raised (the
embedded loops are total functions).  The final conjunct runs the chain
problem to frontier exhaustion as a concrete instance. -/
theorem search_exhausted_returns_none (F A : Type) [DecidableEq F]
    (P : SProblem F A) (st : Strategy F A) (cb : SNode F A → Bool)
    (cutoff : WithTop Int) (n0 : SNode F A) (fuel ext0 enq0 : Nat) :
    ((treeSearch P st cb cutoff n0 fuel ext0 enq0).reason = ExitKind.exhausted →
      (treeSearch P st cb cutoff n0 fuel ext0 enq0).result = none
      ∧ ∀ n, SEv.deqEv n ∈ (treeSearch P st cb cutoff n0 fuel ext0 enq0).events →
          P.goal n.features = false)
    ∧ ((graphSearch P st cb cutoff n0 fuel ext0 enq0).reason = ExitKind.exhausted →
      (graphSearch P st cb cutoff n0 fuel ext0 enq0).result = none
      ∧ ∀ n, SEv.deqEv n ∈ (graphSearch P st cb cutoff n0 fuel ext0 enq0).events →
          P.goal n.features = false)
    ∧ (chainTreeRun.reason = ExitKind.exhausted
        ∧ chainTreeRun.result = none) := by
  refine ⟨?_, ?_, ⟨rfl, rfl⟩⟩
  · intro hreason
    have h := treeLoop_exhausted P st cb cutoff fuel
      (st.enq st.emptyFrontier n0 ⊤) ext0 enq0 (by simpa [treeSearch] using hreason)
    refine ⟨by simpa [treeSearch] using h.1, ?_⟩
    intro n hmem
    simp only [treeSearch, List.mem_cons] at hmem
    rcases hmem with h0 | h0
    · simp at h0
    · exact h.2 n h0
  · intro hreason
    have h := graphLoop_exhausted P st cb cutoff fuel
      (st.enq st.emptyFrontier n0 ⊤) [] ext0 enq0 (by simpa [graphSearch] using hreason)
    refine ⟨by simpa [graphSearch] using h.1, ?_⟩
    intro n hmem
    simp only [graphSearch, List.mem_cons] at hmem
    rcases hmem with h0 | h0
    · simp at h0
    · exact h.2 n h0

theorem treeLoop_cb_stop [DecidableEq F] (P : SProblem F A) (st : Strategy F A)
    (cb : SNode F A → Bool) (cutoff : WithTop Int) :
    ∀ fuel (fr : st.Fr) (ext enq : Nat) (n : SNode F A),
      SEv.deqEv n ∈ (treeLoop P st cb cutoff fuel fr ext enq).events →
      P.goal n.features = false → cb n = true →
      (treeLoop P st cb cutoff fuel fr ext enq).result = none
      ∧ ∃ es1, (treeLoop P st cb cutoff fuel fr ext enq).events
          = es1 ++ [SEv.deqEv n, SEv.cbCall n true] := by
  intro fuel
  induction fuel with
  | zero =>
    intro fr ext enq n hmem
    simp [treeLoop] at hmem
  | succ fuel ih =>
    intro fr ext enq n hmem hgoal hcb
    rw [treeLoop] at hmem ⊢
    by_cases h1 : st.truthy fr = false
    · rw [if_pos h1] at hmem
      simp at hmem
    · rw [if_neg h1] at hmem ⊢
      cases hdeq : st.deq fr with
      | none =>
        rw [hdeq] at hmem
        simp at hmem
      | some p =>
        obtain ⟨n0, fr1⟩ := p
        rw [hdeq] at hmem
        dsimp only at hmem ⊢
        by_cases hg0 : P.goal n0.features = true
        · rw [if_pos hg0] at hmem
          simp only [List.mem_singleton] at hmem
          have : n = n0 := by simpa using hmem
          rw [this] at hgoal
          rw [hg0] at hgoal
          cases hgoal
        · rw [if_neg hg0] at hmem ⊢
          by_cases hc0 : cb n0 = true
          · rw [if_pos hc0] at hmem ⊢
            simp only [List.mem_cons, List.not_mem_nil, or_false] at hmem
            rcases hmem with h | h
            · have : n = n0 := by simpa using h
              subst this
              exact ⟨rfl, [], rfl⟩
            · simp at h
          · rw [if_neg hc0] at hmem ⊢
            simp only [List.mem_cons, List.mem_append, List.mem_map] at hmem
            rcases hmem with h | h | h | h | h
            · have : n = n0 := by simpa using h
              rw [this] at hcb
              exact absurd hcb hc0
            · simp at h
            · simp at h
            · obtain ⟨c, _, hc⟩ := h
              simp at hc
            · obtain ⟨hres, es, hes⟩ := ih _ _ _ n h hgoal hcb
              refine ⟨hres, SEv.deqEv n0 :: SEv.cbCall n0 false ::
                SEv.expandEv n0 (treeEnqueued P n0) ::
                (((treeEnqueued P n0).map (fun c => SEv.cbCall c (cb c))) ++ es), ?_⟩
              simp only [hes, List.cons_append, List.append_assoc]

theorem graphLoop_cb_stop [DecidableEq F] (P : SProblem F A) (st : Strategy F A)
    (cb : SNode F A → Bool) (cutoff : WithTop Int) :
    ∀ fuel (fr : st.Fr) (flt : List F) (ext enq : Nat) (n : SNode F A),
      SEv.deqEv n ∈ (graphLoop P st cb cutoff fuel fr flt ext enq).events →
      P.goal n.features = false → cb n = true →
      (graphLoop P st cb cutoff fuel fr flt ext enq).result = none
      ∧ ∃ es1, (graphLoop P st cb cutoff fuel fr flt ext enq).events
          = es1 ++ [SEv.deqEv n, SEv.cbCall n true] := by
  intro fuel
  induction fuel with
  | zero =>
    intro fr flt ext enq n hmem
    simp [graphLoop] at hmem
  | succ fuel ih =>
    intro fr flt ext enq n hmem hgoal hcb
    rw [graphLoop] at hmem ⊢
    by_cases h1 : st.truthy fr = false
    · rw [if_pos h1] at hmem
      simp at hmem
    · rw [if_neg h1] at hmem ⊢
      cases hdeq : st.deq fr with
      | none =>
        rw [hdeq] at hmem
        simp at hmem
      | some p =>
        obtain ⟨n0, fr1⟩ := p
        rw [hdeq] at hmem
        dsimp only at hmem ⊢
        by_cases hg0 : P.goal n0.features = true
        · rw [if_pos hg0] at hmem
          simp only [List.mem_singleton] at hmem
          have : n = n0 := by simpa using hmem
          rw [this] at hgoal
          rw [hg0] at hgoal
          cases hgoal
        · rw [if_neg hg0] at hmem ⊢
          by_cases hc0 : cb n0 = true
          · rw [if_pos hc0] at hmem ⊢
            simp only [List.mem_cons, List.not_mem_nil, or_false] at hmem
            rcases hmem with h | h
            · have : n = n0 := by simpa using h
              subst this
              exact ⟨rfl, [], rfl⟩
            · simp at h
          · rw [if_neg hc0] at hmem ⊢
            simp only [List.mem_cons, List.mem_append, List.mem_map] at hmem
            rcases hmem with h | h | h | h | h
            · have : n = n0 := by simpa using h
              rw [this] at hcb
              exact absurd hcb hc0
            · simp at h
            · simp at h
            · obtain ⟨c, _, hc⟩ := h
              simp at hc
            · obtain ⟨hres, es, hes⟩ := ih _ _ _ _ n h hgoal hcb
              refine ⟨hres, SEv.deqEv n0 :: SEv.cbCall n0 false ::
                SEv.expandEv n0 (graphExpand st cutoff n0 (treeChildren P n0) fr1 flt).2.2 ::
                ((((graphExpand st cutoff n0 (treeChildren P n0) fr1 flt).2.2).map
                  (fun c => SEv.cbCall c (cb c))) ++ es), ?_⟩
              simp only [hes, List.cons_append, List.append_assoc]

/-- **C5 (counterexample).**  The observation callback's return value is
ignored at the child-notification call site (line 131 / line 277), so a
callback whose first `True` return happens there does not stop the
search: on `goalChildProb` with a callback that is `True` exactly on
feature-`1` nodes, the callback returns `True` during the root's
expansion, yet the search goes on to dequeue the goal child and return
it — not `None`. -/
theorem callback_stop_claim_false :
    0 < cbTrueCount cbIgnoredRun.events
    ∧ cbIgnoredRun.result.isSome = true
    ∧ cbIgnoredRun.reason = ExitKind.goalFound := by
  refine ⟨by decide, rfl, rfl⟩

/-- **C5 (amended).**  In every run of `TreeSearchAlgorithm.search` or
`GraphSearchAlgorithm.search`, whenever a dequeued non-goal node's
observation-callback call returns `True`, the search returns `None`
immediately: that dequeue and callback call are the last two events of
the run, so no further expansion is performed.  (Callback return values
at child-notification calls are ignored by the code.) -/
theorem callback_stop_amended (F A : Type) [DecidableEq F]
    (P : SProblem F A) (st : Strategy F A) (cb : SNode F A → Bool)
    (cutoff : WithTop Int) (n0 : SNode F A) (fuel ext0 enq0 : Nat) :
    (∀ n, SEv.deqEv n ∈ (treeSearch P st cb cutoff n0 fuel ext0 enq0).events →
      P.goal n.features = false → cb n = true →
      (treeSearch P st cb cutoff n0 fuel ext0 enq0).result = none
      ∧ ∃ es1, (treeSearch P st cb cutoff n0 fuel ext0 enq0).events
          = es1 ++ [SEv.deqEv n, SEv.cbCall n true])
    ∧ (∀ n, SEv.deqEv n ∈ (graphSearch P st cb cutoff n0 fuel ext0 enq0).events →
      P.goal n.features = false → cb n = true →
      (graphSearch P st cb cutoff n0 fuel ext0 enq0).result = none
      ∧ ∃ es1, (graphSearch P st cb cutoff n0 fuel ext0 enq0).events
          = es1 ++ [SEv.deqEv n, SEv.cbCall n true]) := by
  constructor
  · intro n hmem hgoal hcb
    have hmem2 : SEv.deqEv n ∈
        (treeLoop P st cb cutoff fuel (st.enq st.emptyFrontier n0 ⊤) ext0 enq0).events := by
      simp only [treeSearch, List.mem_cons] at hmem
      rcases hmem with h | h
      · simp at h
      · exact h
    obtain ⟨hres, es, hes⟩ := treeLoop_cb_stop P st cb cutoff fuel
      (st.enq st.emptyFrontier n0 ⊤) ext0 enq0 n hmem2 hgoal hcb
    refine ⟨by simpa [treeSearch] using hres, SEv.rootEnq n0 :: es, ?_⟩
    simp only [treeSearch, hes, List.cons_append]
  · intro n hmem hgoal hcb
    have hmem2 : SEv.deqEv n ∈
        (graphLoop P st cb cutoff fuel (st.enq st.emptyFrontier n0 ⊤) [] ext0 enq0).events := by
      simp only [graphSearch, List.mem_cons] at hmem
      rcases hmem with h | h
      · simp at h
      · exact h
    obtain ⟨hres, es, hes⟩ := graphLoop_cb_stop P st cb cutoff fuel
      (st.enq st.emptyFrontier n0 ⊤) [] ext0 enq0 n hmem2 hgoal hcb
    refine ⟨by simpa [graphSearch] using hres, SEv.rootEnq n0 :: es, ?_⟩
    simp only [graphSearch, hes, List.cons_append]

theorem treeLoop_expand_exact [DecidableEq F] (P : SProblem F A) (st : Strategy F A)
    (cb : SNode F A → Bool) (cutoff : WithTop Int) :
    ∀ fuel (fr : st.Fr) (ext enq : Nat) (n : SNode F A) (enqd : List (SNode F A)),
      SEv.expandEv n enqd ∈ (treeLoop P st cb cutoff fuel fr ext enq).events →
      enqd = treeEnqueued P n := by
  intro fuel
  induction fuel with
  | zero =>
    intro fr ext enq n enqd hmem
    simp [treeLoop] at hmem
  | succ fuel ih =>
    intro fr ext enq n enqd hmem
    rw [treeLoop] at hmem
    by_cases h1 : st.truthy fr = false
    · rw [if_pos h1] at hmem
      simp at hmem
    · rw [if_neg h1] at hmem
      cases hdeq : st.deq fr with
      | none =>
        rw [hdeq] at hmem
        simp at hmem
      | some p =>
        obtain ⟨n0, fr1⟩ := p
        rw [hdeq] at hmem
        dsimp only at hmem
        by_cases hg0 : P.goal n0.features = true
        · rw [if_pos hg0] at hmem
          simp at hmem
        · rw [if_neg hg0] at hmem
          by_cases hc0 : cb n0 = true
          · rw [if_pos hc0] at hmem
            simp at hmem
          · rw [if_neg hc0] at hmem
            simp only [List.mem_cons, List.mem_append, List.mem_map] at hmem
            rcases hmem with h | h | h | h | h
            · simp at h
            · simp at h
            · have h2 : n = n0 ∧ enqd = treeEnqueued P n0 := by
                simpa using h
              rw [h2.2, h2.1]
            · obtain ⟨c, _, hc⟩ := h
              simp at hc
            · exact ih _ _ _ n enqd h

theorem treeLoop_deq_expands [DecidableEq F] (P : SProblem F A) (st : Strategy F A)
    (cb : SNode F A → Bool) (cutoff : WithTop Int) :
    ∀ fuel (fr : st.Fr) (ext enq : Nat) (n : SNode F A),
      SEv.deqEv n ∈ (treeLoop P st cb cutoff fuel fr ext enq).events →
      P.goal n.features = false → cb n = false →
      SEv.expandEv n (treeEnqueued P n) ∈ (treeLoop P st cb cutoff fuel fr ext enq).events := by
  intro fuel
  induction fuel with
  | zero =>
    intro fr ext enq n hmem
    simp [treeLoop] at hmem
  | succ fuel ih =>
    intro fr ext enq n hmem hgoal hcb
    rw [treeLoop] at hmem ⊢
    by_cases h1 : st.truthy fr = false
    · rw [if_pos h1] at hmem
      simp at hmem
    · rw [if_neg h1] at hmem ⊢
      cases hdeq : st.deq fr with
      | none =>
        rw [hdeq] at hmem
        simp at hmem
      | some p =>
        obtain ⟨n0, fr1⟩ := p
        rw [hdeq] at hmem
        dsimp only at hmem ⊢
        by_cases hg0 : P.goal n0.features = true
        · rw [if_pos hg0] at hmem
          have : n = n0 := by simpa using hmem
          rw [this] at hgoal
          rw [hg0] at hgoal
          cases hgoal
        · rw [if_neg hg0] at hmem ⊢
          by_cases hc0 : cb n0 = true
          · rw [if_pos hc0] at hmem
            simp only [List.mem_cons, List.not_mem_nil, or_false] at hmem
            rcases hmem with h | h
            · have : n = n0 := by simpa using h
              rw [this] at hcb
              rw [hc0] at hcb
              cases hcb
            · simp at h
          · rw [if_neg hc0] at hmem ⊢
            simp only [List.mem_cons, List.mem_append, List.mem_map] at hmem ⊢
            rcases hmem with h | h | h | h | h
            · have : n = n0 := by simpa using h
              rw [this]
              right; right; left; rfl
            · simp at h
            · simp at h
            · obtain ⟨c, _, hc⟩ := h
              simp at hc
            · right; right; right; right
              exact ih _ _ _ n h hgoal hcb

/-- **C3 (counterexample).**  With an observation callback that returns
`True` on every node, the root of the chain problem is dequeued, is not
a goal, and yet is *not* expanded (the search stops first), so not
every dequeued non-goal node is expanded. -/
theorem tree_expansion_claim_false :
    nonGoalDeqCount chainProb stopTreeRun.events = 1
    ∧ expandCount stopTreeRun.events = 0
    ∧ stopTreeRun.result.isSome = false := by
  refine ⟨by decide, by decide, rfl⟩

/-- **C3 (amended).**  In `TreeSearchAlgorithm.search`, every dequeued
non-goal node *at which the observation callback returns `False`* is
expanded, and an expansion calls `enqueue` on exactly those successors
(one per legal action, in order) that are not feature-equal to the
dequeued node's own parent; no other cycle elimination is performed, so
the same state may be enqueued several times in one search — as on the
three-state cycle, where a tree run enqueues the state with feature `1`
twice. -/
theorem tree_expansion_rule (F A : Type) [DecidableEq F]
    (P : SProblem F A) (st : Strategy F A) (cb : SNode F A → Bool)
    (cutoff : WithTop Int) (n0 : SNode F A) (fuel ext0 enq0 : Nat) :
    (∀ n enqd, SEv.expandEv n enqd ∈ (treeSearch P st cb cutoff n0 fuel ext0 enq0).events →
      enqd = (treeChildren P n).filter (fun c => neParentB c n))
    ∧ (∀ n, SEv.deqEv n ∈ (treeSearch P st cb cutoff n0 fuel ext0 enq0).events →
      P.goal n.features = false → cb n = false →
      SEv.expandEv n ((treeChildren P n).filter (fun c => neParentB c n))
        ∈ (treeSearch P st cb cutoff n0 fuel ext0 enq0).events)
    ∧ 2 ≤ (childEnqFeatures cycleTreeRun.events).count 1 := by
  refine ⟨?_, ?_, by decide⟩
  · intro n enqd hmem
    have hmem2 : SEv.expandEv n enqd ∈
        (treeLoop P st cb cutoff fuel (st.enq st.emptyFrontier n0 ⊤) ext0 enq0).events := by
      simp only [treeSearch, List.mem_cons] at hmem
      rcases hmem with h | h
      · simp at h
      · exact h
    exact treeLoop_expand_exact P st cb cutoff fuel _ _ _ n enqd hmem2
  · intro n hmem hgoal hcb
    have hmem2 : SEv.deqEv n ∈
        (treeLoop P st cb cutoff fuel (st.enq st.emptyFrontier n0 ⊤) ext0 enq0).events := by
      simp only [treeSearch, List.mem_cons] at hmem
      rcases hmem with h | h
      · simp at h
      · exact h
    have h := treeLoop_deq_expands P st cb cutoff fuel
      (st.enq st.emptyFrontier n0 ⊤) ext0 enq0 n hmem2 hgoal hcb
    simp only [treeSearch, List.mem_cons]
    right
    exact h

theorem graphExpand_spec [DecidableEq F] (st : Strategy F A) (cutoff : WithTop Int)
    (n : SNode F A) :
    ∀ (cs : List (SNode F A)) (fr : st.Fr) (flt : List F),
      (∀ f, f ∈ (graphExpand st cutoff n cs fr flt).2.1 ↔
        f ∈ flt ∨ f ∈ (graphExpand st cutoff n cs fr flt).2.2.map SNode.features)
      ∧ ((graphExpand st cutoff n cs fr flt).2.2.map SNode.features).Nodup
      ∧ (∀ f, f ∈ (graphExpand st cutoff n cs fr flt).2.2.map SNode.features →
          f ∉ flt) := by
  intro cs
  induction cs with
  | nil =>
    intro fr flt
    simp [graphExpand]
  | cons c cs ih =>
    intro fr flt
    rw [graphExpand]
    by_cases hg : (neParentB c n && !(flt.contains c.features)) = true
    · rw [if_pos hg]
      have hnotin : c.features ∉ flt := by
        intro hin
        have h3 : flt.contains c.features = true := List.elem_iff.2 hin
        rw [h3] at hg
        simp at hg
      obtain ⟨ih1, ih2, ih3⟩ := ih (st.enq fr c cutoff) (c.features :: flt)
      dsimp only
      refine ⟨?_, ?_, ?_⟩
      · intro f
        rw [ih1 f]
        simp only [List.map_cons, List.mem_cons]
        constructor
        · rintro (h | h) 
          · rcases h with h | h
            · right; left; exact h
            · left; exact h
          · right; right; exact h
        · rintro (h | h | h)
          · left; right; exact h
          · left; left; exact h
          · right; exact h
      · simp only [List.map_cons, List.nodup_cons]
        refine ⟨?_, ih2⟩
        intro hin
        exact ih3 c.features hin (List.mem_cons_self _ _)
      · intro f hf
        simp only [List.map_cons, List.mem_cons] at hf
        rcases hf with h | h
        · rw [h]; exact hnotin
        · intro hin
          exact ih3 f h (List.mem_cons_of_mem _ hin)
    · rw [if_neg hg]
      exact ih fr flt

theorem graphLoop_no_dup_child_enq [DecidableEq F] (P : SProblem F A)
    (st : Strategy F A) (cb : SNode F A → Bool) (cutoff : WithTop Int) :
    ∀ fuel (fr : st.Fr) (flt : List F) (ext enq : Nat),
      (childEnqFeatures (graphLoop P st cb cutoff fuel fr flt ext enq).events).Nodup
      ∧ (∀ f, f ∈ childEnqFeatures (graphLoop P st cb cutoff fuel fr flt ext enq).events →
          f ∉ flt) := by
  intro fuel
  induction fuel with
  | zero =>
    intro fr flt ext enq
    simp [graphLoop, childEnqFeatures]
  | succ fuel ih =>
    intro fr flt ext enq
    rw [graphLoop]
    by_cases h1 : st.truthy fr = false
    · rw [if_pos h1]
      simp [childEnqFeatures]
    · rw [if_neg h1]
      cases hdeq : st.deq fr with
      | none => simp [childEnqFeatures]
      | some p =>
        obtain ⟨n0, fr1⟩ := p
        dsimp only
        by_cases hg0 : P.goal n0.features = true
        · rw [if_pos hg0]
          simp [childEnqFeatures]
        · rw [if_neg hg0]
          by_cases hc0 : cb n0 = true
          · rw [if_pos hc0]
            simp [childEnqFeatures]
          · rw [if_neg hc0]
            obtain ⟨hx1, hx2, hx3⟩ :=
              graphExpand_spec st cutoff n0 (treeChildren P n0) fr1 flt
            obtain ⟨ihn, ihf⟩ := ih (graphExpand st cutoff n0 (treeChildren P n0) fr1 flt).1
              (graphExpand st cutoff n0 (treeChildren P n0) fr1 flt).2.1
              (ext + if (graphExpand st cutoff n0 (treeChildren P n0) fr1 flt).2.2.isEmpty then 0 else 1)
              (enq + (graphExpand st cutoff n0 (treeChildren P n0) fr1 flt).2.2.length)
            constructor
            · rw [childEnqFeatures_iter, List.nodup_append]
              refine ⟨hx2, ihn, ?_⟩
              intro f hf1 hf2
              have hmem : f ∈ (graphExpand st cutoff n0 (treeChildren P n0) fr1 flt).2.1 :=
                (hx1 f).2 (Or.inr hf1)
              exact ihf f hf2 hmem
            · rw [childEnqFeatures_iter]
              intro f hf
              rcases List.mem_append.1 hf with h | h
              · exact hx3 f h
              · intro hin
                have hmem : f ∈ (graphExpand st cutoff n0 (treeChildren P n0) fr1 flt).2.1 :=
                  (hx1 f).2 (Or.inl hin)
                exact ihf f h hmem

/-- **C2 (counterexample).**  The initial state's enqueue
(`self.enqueue(initial_state)`, line 259) is not recorded in
`ext_filter`, so on the three-state cycle `0 → 1 → 2 → 0` the state
with feature `0` is enqueued twice during one graph-search run: once as
the root and once as a child reached around the cycle. -/
theorem graph_no_dup_enqueue_claim_false :
    2 ≤ (allEnqFeatures cycleGraphRun.events).count 0 := by
  decide

/-- **C2 (amended).**  During any run of `GraphSearchAlgorithm.search`,
a child node is enqueued only if its state is not already in the
extended-state set, and its state is added to that set at the moment it
is enqueued, so no state's node is enqueued twice *as a child*.  The
initial state's root enqueue, however, is not recorded in the set, so
the initial state's node may be enqueued a second time — as happens on
the three-state cycle, where the full enqueue trace is `[0, 1, 2, 0]`. -/
theorem graph_no_dup_child_enqueue (F A : Type) [DecidableEq F]
    (P : SProblem F A) (st : Strategy F A) (cb : SNode F A → Bool)
    (cutoff : WithTop Int) (n0 : SNode F A) (fuel ext0 enq0 : Nat) :
    (childEnqFeatures (graphSearch P st cb cutoff n0 fuel ext0 enq0).events).Nodup
    ∧ allEnqFeatures cycleGraphRun.events = [0, 1, 2, 0] := by
  constructor
  · have h := graphLoop_no_dup_child_enq P st cb cutoff fuel
      (st.enq st.emptyFrontier n0 ⊤) [] ext0 enq0
    simpa [graphSearch, childEnqFeatures] using h.1
  · decide

/-! ## `UniformCostSearch` and the `heapq` priority queue
(`src/lab1/search_algorithms.py`, lines 196-227)

The UCS frontier is a Python list of `(path_cost, statenode)` tuples
manipulated with `heapq.heappush` / `heapq.heappop`.  The `heapq`
functions (CPython `Lib/heapq.py`) are embedded verbatim below, generic
in the item type and the `<` comparison.  Python compares the tuples
lexicographically: first the costs, then — only on equal costs — the
nodes, using `StateNode.__lt__`, which is defined and returns `True`
precisely so that equal-cost pushes do not raise a `TypeError`. -/

/-- `StateNode.__lt__` (`src/lab1/search_problem.py`, lines 157-162):
defined, and always returns `True`.  `none` would model a missing
`__lt__`, i.e. a `TypeError` on comparison. -/
def snLtChecked (_ _ : SNode F A) : Option Bool :=
  some true

/-- Python's lexicographic `<` on `(path_cost, statenode)` tuples:
`none` models a `TypeError`. -/
def pyTupleLtChecked [DecidableEq F] (x y : Int × SNode F A) : Option Bool :=
  if x.1 = y.1 then
    if snEq x.2 y.2 then some false else snLtChecked x.2 y.2
  else
    some (decide (x.1 < y.1))

/-- The tuple comparison as the total Boolean function `heapq` sees
(possible only because `pyTupleLtChecked` never returns `none`). -/
def pyLt [DecidableEq F] (x y : Int × SNode F A) : Bool :=
  (pyTupleLtChecked x y).getD false

/-- `heapq._siftdown(heap, startpos, pos)`, with `newitem = heap[pos]`
read off at entry (the list passed here already holds `newitem` at
`pos`, so `newitem` also serves as the irrelevant `getD` default). -/
def siftdownLoop (lt : T → T → Bool) (newitem : T) (startpos : Nat) :
    List T → Nat → List T
  | l, pos =>
    if h : startpos < pos then
      let parentpos := (pos - 1) / 2
      let parent := l.getD parentpos newitem
      if lt newitem parent then
        siftdownLoop lt newitem startpos (l.set pos parent) parentpos
      else l.set pos newitem
    else l.set pos newitem
  termination_by _ pos => pos
  decreasing_by
    omega

/-- `heapq.heappush(heap, item)`: append, then sift the new leaf down
towards the root. -/
def heapPush (lt : T → T → Bool) (l : List T) (item : T) : List T :=
  siftdownLoop lt item 0 (l ++ [item]) l.length

/-- `heapq._siftup(heap, pos)`: bubble the smaller child up into the
hole until reaching a leaf, then place `newitem` there and call
`_siftdown`. -/
def siftupLoop (lt : T → T → Bool) (newitem : T) (endpos startpos : Nat) :
    List T → Nat → List T
  | l, pos =>
    if h : 2 * pos + 1 < endpos then
      let childpos := 2 * pos + 1
      let rightpos := childpos + 1
      let cpos := if rightpos < endpos
          && !(lt (l.getD childpos newitem) (l.getD rightpos newitem)) then
          rightpos
        else childpos
      siftupLoop lt newitem endpos startpos (l.set pos (l.getD cpos newitem)) cpos
    else siftdownLoop lt newitem startpos (l.set pos newitem) pos
  termination_by _ pos => endpos - pos
  decreasing_by
    split <;> omega

/-- `heapq.heappop(heap)`: pop the last element; if the heap is still
non-empty, return the old root after moving the last element there and
sifting it up.  `none` models the `IndexError` on an empty heap (the
UCS `dequeue` guards against it with a length check). -/
def heapPop (lt : T → T → Bool) (l : List T) : Option (T × List T) :=
  match l.getLast? with
  | none => none
  | some lastelt =>
    let rest := l.dropLast
    if rest.length = 0 then some (lastelt, rest)
    else
      some (rest.getD 0 lastelt,
        siftupLoop lt lastelt rest.length 0 (rest.set 0 lastelt) 0)

/-- `UniformCostSearch.enqueue` (lines 219-222): push
`(state.path_cost, state)` unless `path_cost` reaches the cutoff. -/
def ucsEnqueue [DecidableEq F] (fr : List (Int × SNode F A)) (n : SNode F A)
    (cutoff : WithTop Int) : List (Int × SNode F A) :=
  if ((n.pathCost : WithTop Int)) < cutoff then heapPush pyLt fr (n.pathCost, n)
  else fr

/-- `UniformCostSearch.dequeue` (lines 224-227): `heappop(...)[1]` when
the frontier is non-empty, `None` otherwise. -/
def ucsDequeue [DecidableEq F] (fr : List (Int × SNode F A)) :
    Option (SNode F A × List (Int × SNode F A)) :=
  if 0 < fr.length then
    match heapPop pyLt fr with
    | none => none
    | some (it, fr2) => some (it.2, fr2)
  else none

def KeyHeap (key : T → Int) (l : List T) : Prop :=
  ∀ i j (hi : i < l.length) (hj : j < l.length), (j = 2*i+1 ∨ j = 2*i+2) →
    key (l.get ⟨i, hi⟩) ≤ key (l.get ⟨j, hj⟩)

theorem get_set_self (l : List T) (i : Nat) (v : T) (h : i < (l.set i v).length) :
    (l.set i v).get ⟨i, h⟩ = v :=
  List.get_set_eq h

theorem get_set_other (l : List T) (i j : Nat) (v : T) (hne : i ≠ j)
    (h : j < (l.set i v).length) (h2 : j < l.length) :
    (l.set i v).get ⟨j, h⟩ = l.get ⟨j, h2⟩ :=
  List.get_set_ne hne h

theorem getCongr (l : List T) (i j : Nat) (hij : i = j) (hi : i < l.length) :
    l.get ⟨i, hi⟩ = l.get ⟨j, hij ▸ hi⟩ := by
  subst hij
  rfl

/-- The state of a `_siftdown` walk with hole `pos` destined for
`newitem`: edges away from the hole hold, `newitem` is below the hole's
children, and the hole's parent is below the hole's children. -/
def HoleDown (key : T → Int) (newitem : T) (l : List T) (pos : Nat) : Prop :=
  (∀ i j (hi : i < l.length) (hj : j < l.length), (j = 2*i+1 ∨ j = 2*i+2) →
      i ≠ pos → j ≠ pos →
      key (l.get ⟨i, hi⟩) ≤ key (l.get ⟨j, hj⟩))
  ∧ (∀ j (hj : j < l.length), (j = 2*pos+1 ∨ j = 2*pos+2) →
      key newitem ≤ key (l.get ⟨j, hj⟩))
  ∧ (∀ j (hj : j < l.length) (hp : (pos-1)/2 < l.length),
      (j = 2*pos+1 ∨ j = 2*pos+2) → 0 < pos →
      key (l.get ⟨(pos-1)/2, hp⟩) ≤ key (l.get ⟨j, hj⟩))

theorem siftdown_ok (lt : T → T → Bool) (key : T → Int)
    (hlt1 : ∀ x y, lt x y = true → key x ≤ key y)
    (hlt2 : ∀ x y, lt x y = false → key y ≤ key x)
    (newitem : T) :
    ∀ pos l, pos < l.length →
      HoleDown key newitem l pos →
      KeyHeap key (siftdownLoop lt newitem 0 l pos)
      ∧ (siftdownLoop lt newitem 0 l pos).length = l.length
      ∧ (∀ x, x ∈ siftdownLoop lt newitem 0 l pos → x = newitem ∨ x ∈ l)
      ∧ newitem ∈ siftdownLoop lt newitem 0 l pos := by
  intro pos
  induction pos using Nat.strong_induction_on with
  | _ pos ih =>
    intro l hpos hinv
    obtain ⟨inv1, inv2, inv3⟩ := hinv
    rw [siftdownLoop]
    by_cases h0 : 0 < pos
    case neg =>
      have hpos0 : pos = 0 := by omega
      subst hpos0
      rw [dif_neg h0]
      refine ⟨?_, by simp, ?_, ?_⟩
      · intro i j hi hj hedge
        have hi' : i < l.length := by simpa using hi
        have hj' : j < l.length := by simpa using hj
        by_cases hieq : i = 0
        · subst hieq
          rw [get_set_self, get_set_other l 0 j newitem (by omega) hj hj']
          exact inv2 j hj' hedge
        · rw [get_set_other l 0 i newitem (by omega) hi hi',
            get_set_other l 0 j newitem (by omega) hj hj']
          exact inv1 i j hi' hj' hedge hieq (by omega)
      · intro x hx
        rcases List.mem_or_eq_of_mem_set hx with h | h
        · exact Or.inr h
        · exact Or.inl h
      · have hm : (l.set 0 newitem).get ⟨0, by simpa using hpos⟩ ∈ l.set 0 newitem :=
          List.get_mem _ _ _
        rwa [get_set_self] at hm
    case pos =>
      rw [dif_pos h0]
      set pp := (pos - 1) / 2 with hpp
      have hpplt : pp < pos := by omega
      have hppl : pp < l.length := lt_trans hpplt hpos
      have hparent : l.getD pp newitem = l.get ⟨pp, hppl⟩ := List.getD_eq_get l newitem hppl
      by_cases hlt : lt newitem (l.getD pp newitem) = true
      case neg =>
        rw [if_neg hlt]
        have hltf : lt newitem (l.getD pp newitem) = false := by
          simpa using hlt
        have hkeyge : key (l.get ⟨pp, hppl⟩) ≤ key newitem := by
          have := hlt2 _ _ hltf
          rwa [hparent] at this
        refine ⟨?_, by simp, ?_, ?_⟩
        · intro i j hi hj hedge
          have hi' : i < l.length := by simpa using hi
          have hj' : j < l.length := by simpa using hj
          by_cases hjeq : j = pos
          · have hieq : i = pp := by omega
            have e1 : (l.set pos newitem).get ⟨j, hj⟩ = newitem := by
              rw [getCongr _ j pos hjeq hj, get_set_self]
            have e2 : (l.set pos newitem).get ⟨i, hi⟩ = l.get ⟨pp, hppl⟩ := by
              rw [getCongr _ i pp hieq hi,
                get_set_other l pos pp newitem (by omega) _ hppl]
            rw [e1, e2]
            exact hkeyge
          · by_cases hieq : i = pos
            · have e1 : (l.set pos newitem).get ⟨i, hi⟩ = newitem := by
                rw [getCongr _ i pos hieq hi, get_set_self]
              have hedge2 : j = 2*pos+1 ∨ j = 2*pos+2 := by omega
              rw [e1, get_set_other l pos j newitem (by omega) hj hj']
              exact inv2 j hj' hedge2
            · rw [get_set_other l pos i newitem (by omega) hi hi',
                get_set_other l pos j newitem (by omega) hj hj']
              exact inv1 i j hi' hj' hedge hieq hjeq
        · intro x hx
          rcases List.mem_or_eq_of_mem_set hx with h | h
          · exact Or.inr h
          · exact Or.inl h
        · have hm : (l.set pos newitem).get ⟨pos, by simpa using hpos⟩ ∈ l.set pos newitem :=
            List.get_mem _ _ _
          rwa [get_set_self] at hm
      case pos =>
        rw [if_pos hlt]
        have hkeylt : key newitem ≤ key (l.get ⟨pp, hppl⟩) := by
          have := hlt1 _ _ hlt
          rwa [hparent] at this
        have hinvNew : HoleDown key newitem (l.set pos (l.getD pp newitem)) pp := by
          set l2 := l.set pos (l.getD pp newitem) with hl2
          have hlen2 : l2.length = l.length := by simp [hl2]
          have hget2 : ∀ k (hk : k < l2.length) (hk2 : k < l.length), k ≠ pos →
              l2.get ⟨k, hk⟩ = l.get ⟨k, hk2⟩ := by
            intro k hk hk2 hkne
            exact get_set_other l pos k _ (by omega) hk hk2
          have hget2pos : ∀ (hk : pos < l2.length),
              l2.get ⟨pos, hk⟩ = l.get ⟨pp, hppl⟩ := by
            intro hk
            rw [get_set_self, hparent]
          refine ⟨?_, ?_, ?_⟩
          · intro i j hi hj hedge hine hjne
            have hi' : i < l.length := by omega
            have hj' : j < l.length := by omega
            by_cases hieq : i = pos
            · have e1 : l2.get ⟨i, hi⟩ = l.get ⟨pp, hppl⟩ := by
                rw [getCongr _ i pos hieq hi]
                exact hget2pos _
              have hedge2 : j = 2*pos+1 ∨ j = 2*pos+2 := by omega
              have hjpos : j ≠ pos := by omega
              rw [e1, hget2 j hj hj' hjpos]
              exact inv3 j hj' hppl hedge2 h0
            · by_cases hjeq : j = pos
              · exact absurd (by omega : i = pp) hine
              · rw [hget2 i hi hi' hieq, hget2 j hj hj' hjeq]
                exact inv1 i j hi' hj' hedge hieq hjeq
          · intro j hj hedge
            have hj' : j < l.length := by omega
            by_cases hjeq : j = pos
            · have e1 : l2.get ⟨j, hj⟩ = l.get ⟨pp, hppl⟩ := by
                rw [getCongr _ j pos hjeq hj]
                exact hget2pos _
              rw [e1]
              exact hkeylt
            · rw [hget2 j hj hj' hjeq]
              refine le_trans hkeylt ?_
              exact inv1 pp j hppl hj' hedge (by omega) hjeq
          · intro j hj hp hedge hpp0
            have hpp2l : (pp - 1) / 2 < l.length := by omega
            have hedgepp : pp = 2*((pp-1)/2)+1 ∨ pp = 2*((pp-1)/2)+2 := by omega
            have hj' : j < l.length := by omega
            have hstep : key (l.get ⟨(pp-1)/2, hpp2l⟩) ≤ key (l.get ⟨pp, hppl⟩) :=
              inv1 _ pp hpp2l hppl hedgepp (by omega) (by omega)
            rw [hget2 ((pp-1)/2) hp hpp2l (by omega)]
            by_cases hjeq : j = pos
            · have e1 : l2.get ⟨j, hj⟩ = l.get ⟨pp, hppl⟩ := by
                rw [getCongr _ j pos hjeq hj]
                exact hget2pos _
              rw [e1]
              exact hstep
            · rw [hget2 j hj hj' hjeq]
              refine le_trans hstep ?_
              exact inv1 pp j hppl hj' hedge (by omega) hjeq
        have hres := ih pp hpplt (l.set pos (l.getD pp newitem))
          (by simpa using hppl) hinvNew
        refine ⟨hres.1, ?_, ?_, hres.2.2.2⟩
        · rw [hres.2.1]
          simp
        · intro x hx
          rcases hres.2.2.1 x hx with h | h
          · exact Or.inl h
          · rcases List.mem_or_eq_of_mem_set h with h2 | h2
            · exact Or.inr h2
            · rw [h2, hparent]
              exact Or.inr (List.get_mem _ _ _)

/-- The state of a `_siftup` walk with hole `pos`: edges out of
positions other than the hole hold, and the hole's parent is below the
hole's children. -/
def HoleUp (key : T → Int) (l : List T) (pos : Nat) : Prop :=
  (∀ i j (hi : i < l.length) (hj : j < l.length), (j = 2*i+1 ∨ j = 2*i+2) →
      i ≠ pos → key (l.get ⟨i, hi⟩) ≤ key (l.get ⟨j, hj⟩))
  ∧ (∀ j (hj : j < l.length) (hp : (pos-1)/2 < l.length),
      (j = 2*pos+1 ∨ j = 2*pos+2) → 0 < pos →
      key (l.get ⟨(pos-1)/2, hp⟩) ≤ key (l.get ⟨j, hj⟩))

/-- One step of the `_siftup` walk: moving the selected child `cp` of
the hole `pos` up into the hole moves the hole to `cp` and preserves
the walk's invariant. -/
theorem siftup_step (key : T → Int) (l : List T) (pos cp : Nat)
    (hcl : cp < l.length)
    (hcedge : cp = 2*pos+1 ∨ cp = 2*pos+2)
    (hsel : ∀ j (hj : j < l.length), (j = 2*pos+1 ∨ j = 2*pos+2) →
      key (l.get ⟨cp, hcl⟩) ≤ key (l.get ⟨j, hj⟩))
    (hinv : HoleUp key l pos) :
    HoleUp key (l.set pos (l.get ⟨cp, hcl⟩)) cp := by
  obtain ⟨inv1, inv2⟩ := hinv
  have hpos : pos < l.length := by omega
  have hget2 : ∀ m (hm : m < (l.set pos (l.get ⟨cp, hcl⟩)).length) (hm2 : m < l.length),
      m ≠ pos → (l.set pos (l.get ⟨cp, hcl⟩)).get ⟨m, hm⟩ = l.get ⟨m, hm2⟩ := by
    intro m hm hm2 hmne
    exact get_set_other l pos m _ (by omega) hm hm2
  have hget2pos : ∀ (hm : pos < (l.set pos (l.get ⟨cp, hcl⟩)).length),
      (l.set pos (l.get ⟨cp, hcl⟩)).get ⟨pos, hm⟩ = l.get ⟨cp, hcl⟩ := by
    intro hm
    rw [get_set_self]
  constructor
  · intro i j hi hj hedge hine
    have hi2 : i < l.length := by simpa using hi
    have hj2 : j < l.length := by simpa using hj
    by_cases hieq : i = pos
    · have e1 : (l.set pos (l.get ⟨cp, hcl⟩)).get ⟨i, hi⟩ = l.get ⟨cp, hcl⟩ := by
        rw [getCongr _ i pos hieq hi]
        exact hget2pos _
      have hedge2 : j = 2*pos+1 ∨ j = 2*pos+2 := by omega
      have hjne : j ≠ pos := by omega
      rw [e1, hget2 j hj hj2 hjne]
      exact hsel j hj2 hedge2
    · by_cases hjeq : j = pos
      · have hi0 : i = (pos-1)/2 := by omega
        have hpos0 : 0 < pos := by omega
        have e2 : (l.set pos (l.get ⟨cp, hcl⟩)).get ⟨j, hj⟩ = l.get ⟨cp, hcl⟩ := by
          rw [getCongr _ j pos hjeq hj]
          exact hget2pos _
        have e3 : (l.set pos (l.get ⟨cp, hcl⟩)).get ⟨i, hi⟩
            = l.get ⟨(pos-1)/2, by omega⟩ := by
          rw [getCongr _ i ((pos-1)/2) hi0 hi]
          exact hget2 _ _ (by omega) (by omega)
        rw [e2, e3]
        exact inv2 cp hcl (by omega) hcedge hpos0
      · rw [hget2 i hi hi2 hieq, hget2 j hj hj2 hjeq]
        exact inv1 i j hi2 hj2 hedge hieq
  · intro j hj hp hedge hcp0
    have hj2 : j < l.length := by simpa using hj
    have hparc : (cp - 1) / 2 = pos := by omega
    have hjne : j ≠ pos := by omega
    have e1 : (l.set pos (l.get ⟨cp, hcl⟩)).get ⟨(cp-1)/2, hp⟩
        = l.get ⟨cp, hcl⟩ := by
      rw [getCongr _ ((cp-1)/2) pos hparc hp]
      exact hget2pos _
    rw [e1, hget2 j hj hj2 hjne]
    exact inv1 cp j hcl hj2 (by omega) (by omega)

theorem siftup_ok (lt : T → T → Bool) (key : T → Int)
    (hlt1 : ∀ x y, lt x y = true → key x ≤ key y)
    (hlt2 : ∀ x y, lt x y = false → key y ≤ key x)
    (newitem : T) (endpos : Nat) :
    ∀ k pos l, endpos - pos ≤ k → pos < l.length → endpos = l.length →
      HoleUp key l pos →
      KeyHeap key (siftupLoop lt newitem endpos 0 l pos)
      ∧ (siftupLoop lt newitem endpos 0 l pos).length = l.length
      ∧ (∀ x, x ∈ siftupLoop lt newitem endpos 0 l pos → x = newitem ∨ x ∈ l) := by
  intro k
  induction k with
  | zero =>
    intro pos l hk hpos hend hinv
    omega
  | succ k ih =>
    intro pos l hk hpos hend hinv
    rw [siftupLoop]
    by_cases hch : 2 * pos + 1 < endpos
    case pos =>
      rw [dif_pos hch]
      dsimp only
      have hchl : 2 * pos + 1 < l.length := by omega
      have hgetl : l.getD (2*pos+1) newitem = l.get ⟨2*pos+1, hchl⟩ :=
        List.getD_eq_get l newitem hchl
      by_cases hcond : (decide (2*pos+1+1 < endpos)
          && !(lt (l.getD (2*pos+1) newitem) (l.getD (2*pos+1+1) newitem))) = true
      case pos =>
        rw [if_pos hcond]
        have hcc := (Bool.and_eq_true _ _).mp hcond
        have hrl : 2*pos+1+1 < l.length := by
          have := of_decide_eq_true hcc.1
          omega
        have hgetr : l.getD (2*pos+1+1) newitem = l.get ⟨2*pos+1+1, hrl⟩ :=
          List.getD_eq_get l newitem hrl
        have hltf : lt (l.getD (2*pos+1) newitem) (l.getD (2*pos+1+1) newitem) = false := by
          have h2 := hcc.2
          cases hq : lt (l.getD (2*pos+1) newitem) (l.getD (2*pos+1+1) newitem)
          · rfl
          · rw [hq] at h2
            cases h2
        have hle := hlt2 _ _ hltf
        rw [hgetl, hgetr] at hle
        have hsel : ∀ j (hj : j < l.length), (j = 2*pos+1 ∨ j = 2*pos+2) →
            key (l.get ⟨2*pos+1+1, hrl⟩) ≤ key (l.get ⟨j, hj⟩) := by
          intro j hj hedge
          rcases hedge with hje | hje
          · rw [getCongr l j (2*pos+1) hje hj]
            exact hle
          · rw [getCongr l j (2*pos+1+1) (by omega) hj]
        have hstep := siftup_step key l pos (2*pos+1+1) hrl (by omega)
          (by
            intro j hj hedge
            exact hsel j hj hedge) hinv
        have hres := ih (2*pos+1+1) (l.set pos (l.getD (2*pos+1+1) newitem))
          (by omega) (by simpa using hrl) (by simpa using hend)
          (by
            rw [hgetr]
            exact hstep)
        refine ⟨hres.1, ?_, ?_⟩
        · rw [hres.2.1]
          simp
        · intro x hx
          rcases hres.2.2 x hx with h | h
          · exact Or.inl h
          · rcases List.mem_or_eq_of_mem_set h with h2 | h2
            · exact Or.inr h2
            · rw [h2, hgetr]
              exact Or.inr (List.get_mem _ _ _)
      case neg =>
        rw [if_neg hcond]
        have hsel : ∀ j (hj : j < l.length), (j = 2*pos+1 ∨ j = 2*pos+2) →
            key (l.get ⟨2*pos+1, hchl⟩) ≤ key (l.get ⟨j, hj⟩) := by
          intro j hj hedge
          rcases hedge with hje | hje
          · rw [getCongr l j (2*pos+1) hje hj]
          · have hcondf : (decide (2*pos+1+1 < endpos)
                && !(lt (l.getD (2*pos+1) newitem) (l.getD (2*pos+1+1) newitem))) = false := by
              cases hq : (decide (2*pos+1+1 < endpos)
                  && !(lt (l.getD (2*pos+1) newitem) (l.getD (2*pos+1+1) newitem)))
              · rfl
              · exact absurd hq hcond
            rcases Bool.and_eq_false_iff.mp hcondf with h2 | h2
            · exfalso
              have h3 : (2*pos+1+1 < endpos) := by omega
              rw [decide_eq_true h3] at h2
              cases h2
            · have hltt : lt (l.getD (2*pos+1) newitem) (l.getD (2*pos+1+1) newitem) = true := by
                cases hq : lt (l.getD (2*pos+1) newitem) (l.getD (2*pos+1+1) newitem)
                · rw [hq] at h2
                  cases h2
                · rfl
              have := hlt1 _ _ hltt
              have hrl : 2*pos+1+1 < l.length := by omega
              have hgetr : l.getD (2*pos+1+1) newitem = l.get ⟨2*pos+1+1, hrl⟩ :=
                List.getD_eq_get l newitem hrl
              rw [hgetl, hgetr] at this
              rw [getCongr l j (2*pos+2) hje hj]
              exact le_trans this (by rw [getCongr l (2*pos+1+1) (2*pos+2) (by omega) hrl])
        have hstep := siftup_step key l pos (2*pos+1) hchl (by omega)
          (by
            intro j hj hedge
            exact hsel j hj hedge) hinv
        have hres := ih (2*pos+1) (l.set pos (l.getD (2*pos+1) newitem))
          (by omega) (by simpa using hchl) (by simpa using hend)
          (by
            rw [hgetl]
            exact hstep)
        refine ⟨hres.1, ?_, ?_⟩
        · rw [hres.2.1]
          simp
        · intro x hx
          rcases hres.2.2 x hx with h | h
          · exact Or.inl h
          · rcases List.mem_or_eq_of_mem_set h with h2 | h2
            · exact Or.inr h2
            · rw [h2, hgetl]
              exact Or.inr (List.get_mem _ _ _)
    case neg =>
      rw [dif_neg hch]
      obtain ⟨inv1, inv2⟩ := hinv
      have hdown := siftdown_ok lt key hlt1 hlt2 newitem pos (l.set pos newitem)
        (by simpa using hpos) ?_
      · refine ⟨hdown.1, ?_, ?_⟩
        · rw [hdown.2.1]
          simp
        · intro x hx
          rcases hdown.2.2.1 x hx with h | h
          · exact Or.inl h
          · rcases List.mem_or_eq_of_mem_set h with h2 | h2
            · exact Or.inr h2
            · exact Or.inl h2
      · refine ⟨?_, ?_, ?_⟩
        · intro i j hi hj hedge hine hjne
          have hi2 : i < l.length := by simpa using hi
          have hj2 : j < l.length := by simpa using hj
          rw [get_set_other l pos i newitem (by omega) hi hi2,
            get_set_other l pos j newitem (by omega) hj hj2]
          exact inv1 i j hi2 hj2 hedge hine
        · intro j hj hedge
          have : j < l.length := by simpa using hj
          omega
        · intro j hj hp hedge hpos0
          have : j < l.length := by simpa using hj
          omega

theorem keyHeap_root_min (key : T → Int) (l : List T) (hh : KeyHeap key l) :
    ∀ j (hj : j < l.length) (h0 : 0 < l.length),
      key (l.get ⟨0, h0⟩) ≤ key (l.get ⟨j, hj⟩) := by
  intro j
  induction j using Nat.strong_induction_on with
  | _ j ih =>
    intro hj h0
    rcases Nat.eq_zero_or_pos j with h | h
    · have : l.get ⟨j, hj⟩ = l.get ⟨0, h0⟩ := getCongr l j 0 h hj
      rw [this]
    · have hp : (j - 1) / 2 < j := by omega
      have hedge : j = 2 * ((j-1)/2) + 1 ∨ j = 2 * ((j-1)/2) + 2 := by omega
      exact le_trans (ih _ hp (by omega) h0) (hh _ j (by omega) hj hedge)

theorem keyHeap_dropLast (key : T → Int) (l : List T) (hh : KeyHeap key l) :
    KeyHeap key l.dropLast := by
  intro i j hi hj hedge
  have hl := l.length_dropLast
  have hi2 : i < l.length := by omega
  have hj2 : j < l.length := by omega
  have ei : l.dropLast.get ⟨i, hi⟩ = l.get ⟨i, hi2⟩ := by
    simp [List.get_eq_getElem, List.getElem_dropLast]
  have ej : l.dropLast.get ⟨j, hj⟩ = l.get ⟨j, hj2⟩ := by
    simp [List.get_eq_getElem, List.getElem_dropLast]
  rw [ei, ej]
  exact hh i j hi2 hj2 hedge

theorem heapPush_ok (lt : T → T → Bool) (key : T → Int)
    (hlt1 : ∀ x y, lt x y = true → key x ≤ key y)
    (hlt2 : ∀ x y, lt x y = false → key y ≤ key x)
    (l : List T) (x : T) (hh : KeyHeap key l) :
    KeyHeap key (heapPush lt l x)
    ∧ (heapPush lt l x).length = l.length + 1
    ∧ x ∈ heapPush lt l x
    ∧ (∀ y, y ∈ heapPush lt l x → y = x ∨ y ∈ l) := by
  have hres := siftdown_ok lt key hlt1 hlt2 x l.length (l ++ [x])
    (by simp) ?_
  · refine ⟨hres.1, ?_, hres.2.2.2, ?_⟩
    · show (siftdownLoop lt x 0 (l ++ [x]) l.length).length = l.length + 1
      rw [hres.2.1]
      simp
    · intro y hy
      rcases hres.2.2.1 y hy with h | h
      · exact Or.inl h
      · rcases List.mem_append.mp h with h2 | h2
        · exact Or.inr h2
        · exact Or.inl (by simpa using h2)
  · refine ⟨?_, ?_, ?_⟩
    · intro i j hi hj hedge hine hjne
      have hla : (l ++ [x]).length = l.length + 1 := by simp
      have hi2 : i < l.length := by omega
      have hj2 : j < l.length := by omega
      rw [List.get_append i hi2, List.get_append j hj2]
      exact hh i j hi2 hj2 hedge
    · intro j hj hedge
      have : (l ++ [x]).length = l.length + 1 := by simp
      omega
    · intro j hj hp hedge hpos0
      have : (l ++ [x]).length = l.length + 1 := by simp
      omega

theorem heapPop_ok (lt : T → T → Bool) (key : T → Int)
    (hlt1 : ∀ x y, lt x y = true → key x ≤ key y)
    (hlt2 : ∀ x y, lt x y = false → key y ≤ key x)
    (l : List T) (hh : KeyHeap key l) :
    ∀ x l2, heapPop lt l = some (x, l2) →
      x ∈ l
      ∧ (∀ y, y ∈ l → key x ≤ key y)
      ∧ KeyHeap key l2
      ∧ l2.length + 1 = l.length
      ∧ (∀ y, y ∈ l2 → y ∈ l) := by
  intro x l2 hpop
  rw [heapPop] at hpop
  cases hlast : l.getLast? with
  | none =>
    rw [hlast] at hpop
    cases hpop
  | some lastelt =>
    rw [hlast] at hpop
    have hlm : lastelt ∈ l := List.mem_of_mem_getLast? hlast
    have hlpos : 0 < l.length := List.length_pos.mpr (by
      intro hnil
      rw [hnil] at hlast
      cases hlast)
    have hdl := l.length_dropLast
    dsimp only at hpop
    by_cases hr : l.dropLast.length = 0
    case pos =>
      rw [if_pos hr] at hpop
      have hl1 : l.length = 1 := by omega
      obtain ⟨a, ha⟩ := List.length_eq_one.mp hl1
      have hax : lastelt = a := by
        rw [ha] at hlast
        exact (by simpa using hlast : a = lastelt).symm
      obtain ⟨hx, hl2⟩ : lastelt = x ∧ l.dropLast = l2 := by
        injection hpop with h
        exact ⟨congrArg Prod.fst h, congrArg Prod.snd h⟩
      refine ⟨hx ▸ hlm, ?_, ?_, ?_, ?_⟩
      · intro y hy
        rw [ha] at hy
        have hy2 : y = a := by simpa using hy
        rw [hy2, ← hx, hax]
      · rw [← hl2, ha]
        intro i j hi hj hedge
        simp at hj
      · rw [← hl2, ha]
        simp
      · rw [← hl2, ha]
        intro y hy
        simp at hy
    case neg =>
      rw [if_neg hr] at hpop
      have hrpos : 0 < l.dropLast.length := by omega
      obtain ⟨hx, hl2⟩ : l.dropLast.getD 0 lastelt = x
          ∧ siftupLoop lt lastelt l.dropLast.length 0 (l.dropLast.set 0 lastelt) 0 = l2 := by
        injection hpop with h
        exact ⟨congrArg Prod.fst h, congrArg Prod.snd h⟩
      have hgd : l.dropLast.getD 0 lastelt = l.dropLast.get ⟨0, hrpos⟩ :=
        List.getD_eq_get _ _ hrpos
      have hget0 : l.dropLast.get ⟨0, hrpos⟩ = l.get ⟨0, hlpos⟩ := by
        simp [List.get_eq_getElem, List.getElem_dropLast]
      have hx0 : x = l.get ⟨0, hlpos⟩ := by
        rw [← hx, hgd, hget0]
      have hdK := keyHeap_dropLast key l hh
      have hup := siftup_ok lt key hlt1 hlt2 lastelt l.dropLast.length
        l.dropLast.length 0 (l.dropLast.set 0 lastelt)
        (by omega) (by simpa using hrpos) (by simp) ?_
      · refine ⟨?_, ?_, ?_, ?_, ?_⟩
        · rw [hx0]
          exact List.get_mem _ _ _
        · intro y hy
          obtain ⟨n, rfl⟩ := List.mem_iff_get.mp hy
          rw [hx0]
          obtain ⟨nv, hnv⟩ := n
          exact keyHeap_root_min key l hh nv hnv hlpos
        · rw [← hl2]
          exact hup.1
        · rw [← hl2]
          have h2 := hup.2.1
          rw [h2]
          simp
          omega
        · intro y hy
          rw [← hl2] at hy
          rcases hup.2.2 y hy with h | h
          · rw [h]
            exact hlm
          · rcases List.mem_or_eq_of_mem_set h with h2 | h2
            · exact List.mem_of_mem_dropLast h2
            · rw [h2]
              exact hlm
      · constructor
        · intro i j hi hj hedge hine
          have hll : (l.dropLast.set 0 lastelt).length = l.dropLast.length := by simp
          have hi2 : i < l.dropLast.length := by omega
          have hj2 : j < l.dropLast.length := by omega
          have hjne : j ≠ 0 := by omega
          rw [get_set_other _ 0 i lastelt (by omega) hi hi2,
            get_set_other _ 0 j lastelt (by omega) hj hj2]
          exact hdK i j hi2 hj2 hedge
        · intro j hj hp hedge h0
          omega

theorem siftdownLoop_mem (lt : T → T → Bool) (newitem : T) :
    ∀ pos l, pos < l.length →
      newitem ∈ siftdownLoop lt newitem 0 l pos
      ∧ (siftdownLoop lt newitem 0 l pos).length = l.length := by
  intro pos
  induction pos using Nat.strong_induction_on with
  | _ pos ih =>
    intro l hpos
    rw [siftdownLoop]
    by_cases h0 : 0 < pos
    · rw [dif_pos h0]
      by_cases hlt : lt newitem (l.getD ((pos-1)/2) newitem) = true
      · rw [if_pos hlt]
        have := ih ((pos-1)/2) (by omega) (l.set pos (l.getD ((pos-1)/2) newitem))
          (by simp; omega)
        refine ⟨this.1, ?_⟩
        rw [this.2]
        simp
      · rw [if_neg hlt]
        refine ⟨?_, by simp⟩
        have hm : (l.set pos newitem).get ⟨pos, by simpa using hpos⟩ ∈ l.set pos newitem :=
          List.get_mem _ _ _
        rwa [get_set_self] at hm
    · rw [dif_neg h0]
      refine ⟨?_, by simp⟩
      have hp0 : pos = 0 := by omega
      subst hp0
      have hm : (l.set 0 newitem).get ⟨0, by simpa using hpos⟩ ∈ l.set 0 newitem :=
        List.get_mem _ _ _
      rwa [get_set_self] at hm

theorem heapPush_mem (lt : T → T → Bool) (l : List T) (x : T) :
    x ∈ heapPush lt l x ∧ (heapPush lt l x).length = l.length + 1 := by
  have := siftdownLoop_mem lt x l.length (l ++ [x]) (by simp)
  refine ⟨this.1, ?_⟩
  show (siftdownLoop lt x 0 (l ++ [x]) l.length).length = l.length + 1
  rw [this.2]
  simp

theorem pyLt_le1 [DecidableEq F] (x y : Int × SNode F A) :
    pyLt x y = true → x.1 ≤ y.1 := by
  intro h
  unfold pyLt pyTupleLtChecked at h
  by_cases he : x.1 = y.1
  · omega
  · rw [if_neg he] at h
    simp only [Option.getD_some, decide_eq_true_eq] at h
    omega

theorem pyLt_le2 [DecidableEq F] (x y : Int × SNode F A) :
    pyLt x y = false → y.1 ≤ x.1 := by
  intro h
  unfold pyLt pyTupleLtChecked at h
  by_cases he : x.1 = y.1
  · omega
  · rw [if_neg he] at h
    simp only [Option.getD_some, decide_eq_false_iff_not] at h
    omega

/-- The states of the UCS frontier reachable by any sequence of
`enqueue`/`dequeue` operations from the empty frontier built by
`__init__`. -/
inductive UCSReachable {F A : Type} [DecidableEq F] :
    List (Int × SNode F A) → Prop where
  | empty : UCSReachable []
  | enq (fr : List (Int × SNode F A)) (n : SNode F A) (cutoff : WithTop Int) :
      UCSReachable fr → UCSReachable (ucsEnqueue fr n cutoff)
  | deq (fr fr2 : List (Int × SNode F A)) (n : SNode F A) :
      UCSReachable fr → ucsDequeue fr = some (n, fr2) → UCSReachable fr2

theorem ucs_reachable_invariant [DecidableEq F]
    (fr : List (Int × SNode F A)) (h : UCSReachable fr) :
    KeyHeap Prod.fst fr ∧ ∀ it, it ∈ fr → it.1 = it.2.pathCost := by
  induction h with
  | empty =>
    constructor
    · intro i j hi hj hedge
      simp at hj
    · intro it hit
      simp at hit
  | enq fr n cutoff hr ih =>
    unfold ucsEnqueue
    by_cases hc : ((n.pathCost : WithTop Int)) < cutoff
    · rw [if_pos hc]
      have hp := heapPush_ok pyLt Prod.fst (pyLt_le1) (pyLt_le2) fr
        (n.pathCost, n) ih.1
      refine ⟨hp.1, ?_⟩
      intro it hit
      rcases hp.2.2.2 it hit with h2 | h2
      · rw [h2]
      · exact ih.2 it h2
    · rw [if_neg hc]
      exact ih
  | deq fr fr2 n hr hdq ih =>
    unfold ucsDequeue at hdq
    by_cases hl : 0 < fr.length
    · rw [if_pos hl] at hdq
      cases hpop : heapPop pyLt fr with
      | none =>
        rw [hpop] at hdq
        cases hdq
      | some p =>
        rw [hpop] at hdq
        obtain ⟨it, fr3⟩ := p
        have hfr3 : fr3 = fr2 := by
          injection hdq with h2
          exact congrArg Prod.snd h2
        have hp := heapPop_ok pyLt Prod.fst (pyLt_le1) (pyLt_le2) fr ih.1
          it fr3 hpop
        rw [hfr3] at hp
        refine ⟨hp.2.2.1, ?_⟩
        intro it2 hit2
        exact ih.2 it2 (hp.2.2.2.2 it2 hit2)
    · rw [if_neg hl] at hdq
      cases hdq

/-- **C4.**  The frontier strategies behave as specified.
`DepthFirstSearch`: `enqueue` appends the node exactly when
`depth < cutoff`, and `dequeue` removes the most recently inserted node
(popping an enqueued node returns it together with the previous
frontier).  `UniformCostSearch`: `enqueue` adds the `(path_cost, node)`
entry exactly when `path_cost < cutoff`; on every reachable frontier,
`dequeue` removes a node of minimum `path_cost` (both against the
stored keys and against the entries' nodes); and the tuple comparison
used by `heapq` is defined on every pair of entries — equal path costs
fall through to `StateNode.__lt__`, which is defined — so enqueuing two
nodes with equal `path_cost` does not raise an error. -/
theorem frontier_strategies_spec (F A : Type) [DecidableEq F] :
    (∀ (fr : List (SNode F A)) (n : SNode F A) (cutoff : WithTop Int),
      (((n.depth : Int) : WithTop Int) < cutoff →
        (dfsStrategy F A).enq fr n cutoff = fr ++ [n]
        ∧ (dfsStrategy F A).deq ((dfsStrategy F A).enq fr n cutoff) = some (n, fr))
      ∧ (¬ ((n.depth : Int) : WithTop Int) < cutoff →
        (dfsStrategy F A).enq fr n cutoff = fr))
    ∧ (∀ (fr : List (Int × SNode F A)) (n : SNode F A) (cutoff : WithTop Int),
      (((n.pathCost : WithTop Int)) < cutoff →
        (n.pathCost, n) ∈ ucsEnqueue fr n cutoff
        ∧ (ucsEnqueue fr n cutoff).length = fr.length + 1)
      ∧ (¬ ((n.pathCost : WithTop Int)) < cutoff → ucsEnqueue fr n cutoff = fr))
    ∧ (∀ (fr : List (Int × SNode F A)), UCSReachable fr →
      ∀ x fr2, ucsDequeue fr = some (x, fr2) →
        (∀ y, y ∈ fr → x.pathCost ≤ y.1 ∧ x.pathCost ≤ y.2.pathCost)
        ∧ UCSReachable fr2)
    ∧ (∀ x y : Int × SNode F A, (pyTupleLtChecked x y).isSome = true) := by
  refine ⟨?_, ?_, ?_, ?_⟩
  · intro fr n cutoff
    constructor
    · intro hc
      have he : (dfsStrategy F A).enq fr n cutoff = fr ++ [n] := by
        unfold dfsStrategy
        dsimp only
        rw [if_pos hc]
      refine ⟨he, ?_⟩
      rw [he]
      show (match (fr ++ [n]).getLast? with
        | none => none
        | some x => some (x, (fr ++ [n]).dropLast)) = some (n, fr)
      rw [List.getLast?_concat, List.dropLast_concat]
    · intro hc
      unfold dfsStrategy
      dsimp only
      rw [if_neg hc]
  · intro fr n cutoff
    constructor
    · intro hc
      unfold ucsEnqueue
      rw [if_pos hc]
      exact heapPush_mem pyLt fr (n.pathCost, n)
    · intro hc
      unfold ucsEnqueue
      rw [if_neg hc]
  · intro fr hreach x fr2 hdq
    have hdq0 := hdq
    have hinv := ucs_reachable_invariant fr hreach
    unfold ucsDequeue at hdq
    by_cases hl : 0 < fr.length
    · rw [if_pos hl] at hdq
      cases hpop : heapPop pyLt fr with
      | none =>
        rw [hpop] at hdq
        cases hdq
      | some p =>
        rw [hpop] at hdq
        obtain ⟨it, fr3⟩ := p
        obtain ⟨hx, hfr3⟩ : it.2 = x ∧ fr3 = fr2 := by
          injection hdq with h2
          exact ⟨congrArg Prod.fst h2, congrArg Prod.snd h2⟩
        have hp := heapPop_ok pyLt Prod.fst (pyLt_le1) (pyLt_le2) fr hinv.1
          it fr3 hpop
        have hit : it.1 = it.2.pathCost := hinv.2 it hp.1
        constructor
        · intro y hy
          have h1 : it.1 ≤ y.1 := hp.2.1 y hy
          have h2 : y.1 = y.2.pathCost := hinv.2 y hy
          constructor
          · rw [← hx, ← hit]
            exact h1
          · rw [← hx, ← hit, ← h2]
            exact h1
        · exact UCSReachable.deq fr fr2 x hreach hdq0
    · rw [if_neg hl] at hdq
      cases hdq
  · intro x y
    unfold pyTupleLtChecked snLtChecked
    by_cases he : x.1 = y.1
    · rw [if_pos he]
      split <;> rfl
    · rw [if_neg he]
      rfl

/-! ## Minimax and Alpha-Beta game search (`src/lab2/game_algorithms.py`)

The bodies of `MinimaxSearchAgent.pick_action` and
`AlphaBetaSearchAgent.pick_action` are unimplemented stubs in the
repository (`raise NotImplementedError`), so the two algorithms are
modelled from the specification: depth-bounded recursive evaluation of
the game tree, the searching player maximizing and the opponent
minimizing, with fail-soft alpha-beta pruning over an `[alpha, beta]`
window initialized to `(-inf, +inf)`; `total_nodes` counts every state
node visited.  The game tree of a state is its depth-limited unfolding
(`buildT`), with non-empty child lists (`GTrees`); endgame, depth-limit
and no-action states are leaves evaluated by the evaluation function. -/

/-- Game-search values: evaluation scores are Python floats (embedded
as `Int`), and the alpha/beta window is initialized to `(-inf, +inf)`,
so values live in `WithBot (WithTop Int)`. -/
abbrev GV : Type := WithBot (WithTop Int)

def iv (z : Int) : GV := ((z : WithTop Int) : GV)

def isFin (v : GV) : Prop := ⊥ < v ∧ v < ⊤

mutual
inductive GTree : Type where
  | leaf (v : Int)
  | node (maxing : Bool) (cs : GTrees)
inductive GTrees : Type where
  | one (t : GTree)
  | cons (t : GTree) (ts : GTrees)
end

mutual
def mmval : GTree → GV
  | .leaf v => iv v
  | .node true cs => mmMaxT cs
  | .node false cs => mmMinT cs

def mmMaxT : GTrees → GV
  | .one t => mmval t
  | .cons t ts => max (mmval t) (mmMaxT ts)

def mmMinT : GTrees → GV
  | .one t => mmval t
  | .cons t ts => min (mmval t) (mmMinT ts)
end

mutual
def ab (α β : GV) : GTree → GV
  | .leaf v => iv v
  | .node true cs => abMaxT α β cs
  | .node false cs => abMinT α β cs

def abMaxT (α β : GV) : GTrees → GV
  | .one t => ab α β t
  | .cons t ts =>
    let v := ab α β t
    if β ≤ v then v else abMaxGo (max α v) β v ts

def abMaxGo (α β best : GV) : GTrees → GV
  | .one t => max best (ab α β t)
  | .cons t ts =>
    let b2 := max best (ab α β t)
    if β ≤ b2 then b2 else abMaxGo (max α b2) β b2 ts

def abMinT (α β : GV) : GTrees → GV
  | .one t => ab α β t
  | .cons t ts =>
    let v := ab α β t
    if v ≤ α then v else abMinGo α (min β v) v ts

def abMinGo (α β best : GV) : GTrees → GV
  | .one t => min best (ab α β t)
  | .cons t ts =>
    let b2 := min best (ab α β t)
    if b2 ≤ α then b2 else abMinGo α (min β b2) b2 ts
end

mutual
def cnt : GTree → Nat
  | .leaf _ => 1
  | .node _ cs => 1 + cntT cs

def cntT : GTrees → Nat
  | .one t => cnt t
  | .cons t ts => cnt t + cntT ts
end

mutual
def abCnt (α β : GV) : GTree → Nat
  | .leaf _ => 1
  | .node true cs => 1 + abCntMaxT α β cs
  | .node false cs => 1 + abCntMinT α β cs

def abCntMaxT (α β : GV) : GTrees → Nat
  | .one t => abCnt α β t
  | .cons t ts =>
    abCnt α β t +
      (let v := ab α β t
       if β ≤ v then 0 else abCntMaxGo (max α v) β v ts)

def abCntMaxGo (α β best : GV) : GTrees → Nat
  | .one t => abCnt α β t
  | .cons t ts =>
    abCnt α β t +
      (let b2 := max best (ab α β t)
       if β ≤ b2 then 0 else abCntMaxGo (max α b2) β b2 ts)

def abCntMinT (α β : GV) : GTrees → Nat
  | .one t => abCnt α β t
  | .cons t ts =>
    abCnt α β t +
      (let v := ab α β t
       if v ≤ α then 0 else abCntMinGo α (min β v) v ts)

def abCntMinGo (α β best : GV) : GTrees → Nat
  | .one t => abCnt α β t
  | .cons t ts =>
    abCnt α β t +
      (let b2 := min best (ab α β t)
       if b2 ≤ α then 0 else abCntMinGo α (min β b2) b2 ts)
end

theorem iv_isFin (z : Int) : isFin (iv z) := by
  constructor
  · exact WithBot.bot_lt_coe _
  · show ((z : WithTop Int) : GV) < ⊤
    rw [← WithBot.coe_top]
    exact WithBot.coe_lt_coe.2 (WithTop.coe_lt_top z)

theorem isFin_max {a b : GV} (ha : isFin a) (hb : isFin b) : isFin (max a b) :=
  ⟨lt_max_iff.2 (Or.inl ha.1), max_lt_iff.2 ⟨ha.2, hb.2⟩⟩

theorem isFin_min {a b : GV} (ha : isFin a) (hb : isFin b) : isFin (min a b) :=
  ⟨lt_min_iff.2 ⟨ha.1, hb.1⟩, min_lt_iff.2 (Or.inl ha.2)⟩

mutual
theorem mm_isFin : ∀ t : GTree, isFin (mmval t)
  | .leaf v => iv_isFin v
  | .node true cs => mmMaxT_isFin cs
  | .node false cs => mmMinT_isFin cs

theorem mmMaxT_isFin : ∀ cs : GTrees, isFin (mmMaxT cs)
  | .one t => mm_isFin t
  | .cons t ts => isFin_max (mm_isFin t) (mmMaxT_isFin ts)

theorem mmMinT_isFin : ∀ cs : GTrees, isFin (mmMinT cs)
  | .one t => mm_isFin t
  | .cons t ts => isFin_min (mm_isFin t) (mmMinT_isFin ts)
end

mutual
theorem ab_isFin : ∀ (t : GTree) (α β : GV), isFin (ab α β t)
  | .leaf v, _, _ => iv_isFin v
  | .node true cs, α, β => abMaxT_isFin cs α β
  | .node false cs, α, β => abMinT_isFin cs α β

theorem abMaxT_isFin : ∀ (cs : GTrees) (α β : GV), isFin (abMaxT α β cs)
  | .one t, α, β => ab_isFin t α β
  | .cons t ts, α, β => by
    show isFin (if β ≤ ab α β t then ab α β t
      else abMaxGo (max α (ab α β t)) β (ab α β t) ts)
    split
    · exact ab_isFin t α β
    · exact abMaxGo_isFin ts _ _ _ (ab_isFin t α β)

theorem abMaxGo_isFin : ∀ (ts : GTrees) (α β best : GV), isFin best →
    isFin (abMaxGo α β best ts)
  | .one t, α, β, best, hb => isFin_max hb (ab_isFin t α β)
  | .cons t ts, α, β, best, hb => by
    show isFin (if β ≤ max best (ab α β t) then max best (ab α β t)
      else abMaxGo (max α (max best (ab α β t))) β (max best (ab α β t)) ts)
    split
    · exact isFin_max hb (ab_isFin t α β)
    · exact abMaxGo_isFin ts _ _ _ (isFin_max hb (ab_isFin t α β))

theorem abMinT_isFin : ∀ (cs : GTrees) (α β : GV), isFin (abMinT α β cs)
  | .one t, α, β => ab_isFin t α β
  | .cons t ts, α, β => by
    show isFin (if ab α β t ≤ α then ab α β t
      else abMinGo α (min β (ab α β t)) (ab α β t) ts)
    split
    · exact ab_isFin t α β
    · exact abMinGo_isFin ts _ _ _ (ab_isFin t α β)

theorem abMinGo_isFin : ∀ (ts : GTrees) (α β best : GV), isFin best →
    isFin (abMinGo α β best ts)
  | .one t, α, β, best, hb => isFin_min hb (ab_isFin t α β)
  | .cons t ts, α, β, best, hb => by
    show isFin (if min best (ab α β t) ≤ α then min best (ab α β t)
      else abMinGo α (min β (min best (ab α β t))) (min best (ab α β t)) ts)
    split
    · exact isFin_min hb (ab_isFin t α β)
    · exact abMinGo_isFin ts _ _ _ (isFin_min hb (ab_isFin t α β))
end

mutual
theorem abCnt_le : ∀ (t : GTree) (α β : GV), abCnt α β t ≤ cnt t
  | .leaf _, _, _ => le_refl _
  | .node true cs, α, β => by
    show 1 + abCntMaxT α β cs ≤ 1 + cntT cs
    exact Nat.add_le_add_left (abCntMaxT_le cs α β) 1
  | .node false cs, α, β => by
    show 1 + abCntMinT α β cs ≤ 1 + cntT cs
    exact Nat.add_le_add_left (abCntMinT_le cs α β) 1

theorem abCntMaxT_le : ∀ (cs : GTrees) (α β : GV), abCntMaxT α β cs ≤ cntT cs
  | .one t, α, β => abCnt_le t α β
  | .cons t ts, α, β => by
    show abCnt α β t + (if β ≤ ab α β t then 0
      else abCntMaxGo (max α (ab α β t)) β (ab α β t) ts) ≤ cnt t + cntT ts
    refine Nat.add_le_add (abCnt_le t α β) ?_
    split
    · exact Nat.zero_le _
    · exact abCntMaxGo_le ts _ _ _

theorem abCntMaxGo_le : ∀ (ts : GTrees) (α β best : GV),
    abCntMaxGo α β best ts ≤ cntT ts
  | .one t, α, β, _ => abCnt_le t α β
  | .cons t ts, α, β, best => by
    show abCnt α β t + (if β ≤ max best (ab α β t) then 0
      else abCntMaxGo (max α (max best (ab α β t))) β (max best (ab α β t)) ts)
      ≤ cnt t + cntT ts
    refine Nat.add_le_add (abCnt_le t α β) ?_
    split
    · exact Nat.zero_le _
    · exact abCntMaxGo_le ts _ _ _

theorem abCntMinT_le : ∀ (cs : GTrees) (α β : GV), abCntMinT α β cs ≤ cntT cs
  | .one t, α, β => abCnt_le t α β
  | .cons t ts, α, β => by
    show abCnt α β t + (if ab α β t ≤ α then 0
      else abCntMinGo α (min β (ab α β t)) (ab α β t) ts) ≤ cnt t + cntT ts
    refine Nat.add_le_add (abCnt_le t α β) ?_
    split
    · exact Nat.zero_le _
    · exact abCntMinGo_le ts _ _ _

theorem abCntMinGo_le : ∀ (ts : GTrees) (α β best : GV),
    abCntMinGo α β best ts ≤ cntT ts
  | .one t, α, β, _ => abCnt_le t α β
  | .cons t ts, α, β, best => by
    show abCnt α β t + (if min best (ab α β t) ≤ α then 0
      else abCntMinGo α (min β (min best (ab α β t))) (min best (ab α β t)) ts)
      ≤ cnt t + cntT ts
    refine Nat.add_le_add (abCnt_le t α β) ?_
    split
    · exact Nat.zero_le _
    · exact abCntMinGo_le ts _ _ _
end

mutual
theorem ab_bounds : ∀ (t : GTree) (α β : GV),
    (ab α β t < β → mmval t ≤ ab α β t)
    ∧ (α < ab α β t → ab α β t ≤ mmval t)
  | .leaf v, α, β => by
    simp only [ab, mmval]
    exact ⟨fun _ => le_refl _, fun _ => le_refl _⟩
  | .node true cs, α, β => by
    simp only [ab, mmval]
    exact abMaxT_bounds cs α β
  | .node false cs, α, β => by
    simp only [ab, mmval]
    exact abMinT_bounds cs α β

theorem abMaxT_bounds : ∀ (cs : GTrees) (α β : GV),
    (abMaxT α β cs < β → mmMaxT cs ≤ abMaxT α β cs)
    ∧ (α < abMaxT α β cs → abMaxT α β cs ≤ mmMaxT cs)
  | .one t, α, β => by
    simp only [abMaxT, mmMaxT]
    exact ab_bounds t α β
  | .cons t ts, α, β => by
    simp only [abMaxT, mmMaxT]
    by_cases hprune : β ≤ ab α β t
    · rw [if_pos hprune]
      constructor
      · intro hβ
        exact absurd (lt_of_le_of_lt hprune hβ) (lt_irrefl _)
      · intro hα
        exact le_trans ((ab_bounds t α β).2 hα) (le_max_left _ _)
    · rw [if_neg hprune]
      have hvβ : ab α β t < β := lt_of_not_le hprune
      have hmmt : mmval t ≤ ab α β t := (ab_bounds t α β).1 hvβ
      have hlb := abMaxGo_lb ts (max α (ab α β t)) β (ab α β t)
      constructor
      · intro hβ
        refine max_le ?_ (hlb.2 hβ)
        exact le_trans hmmt hlb.1
      · intro hα
        have hub := abMaxGo_ub ts α β (ab α β t) (mmval t)
          (fun h => (ab_bounds t α β).2 h)
        exact hub hα

theorem abMaxGo_lb : ∀ (ts : GTrees) (α β best : GV),
    best ≤ abMaxGo α β best ts
    ∧ (abMaxGo α β best ts < β → mmMaxT ts ≤ abMaxGo α β best ts)
  | .one t, α, β, best => by
    simp only [abMaxGo, mmMaxT]
    refine ⟨le_max_left _ _, ?_⟩
    intro hβ
    have hw : ab α β t < β := lt_of_le_of_lt (le_max_right _ _) hβ
    exact le_trans ((ab_bounds t α β).1 hw) (le_max_right _ _)
  | .cons t ts, α, β, best => by
    simp only [abMaxGo, mmMaxT]
    by_cases hprune : β ≤ max best (ab α β t)
    · rw [if_pos hprune]
      constructor
      · exact le_max_left _ _
      · intro hβ
        exact absurd (lt_of_le_of_lt hprune hβ) (lt_irrefl _)
    · rw [if_neg hprune]
      have hb2β : max best (ab α β t) < β := lt_of_not_le hprune
      have hwβ : ab α β t < β := lt_of_le_of_lt (le_max_right _ _) hb2β
      have hlb := abMaxGo_lb ts (max α (max best (ab α β t))) β (max best (ab α β t))
      constructor
      · exact le_trans (le_max_left best (ab α β t)) hlb.1
      · intro hβ
        refine max_le ?_ (hlb.2 hβ)
        refine le_trans ((ab_bounds t α β).1 hwβ) ?_
        exact le_trans (le_max_right best _) hlb.1

theorem abMaxGo_ub : ∀ (ts : GTrees) (α β best gB : GV),
    (α < best → best ≤ gB) →
    α < abMaxGo (max α best) β best ts →
    abMaxGo (max α best) β best ts ≤ max gB (mmMaxT ts)
  | .one t, α, β, best, gB => by
    intro hB hα
    simp only [abMaxGo, mmMaxT] at hα ⊢
    rcases lt_trichotomy best (ab (max α best) β t) with hc | hc | hc
    · have hmax : max best (ab (max α best) β t) = ab (max α best) β t :=
        max_eq_right (le_of_lt hc)
      rw [hmax] at hα ⊢
      have hup : max α best < ab (max α best) β t := by
        rw [max_lt_iff]
        exact ⟨hα, hc⟩
      exact le_trans ((ab_bounds t (max α best) β).2 hup) (le_max_right _ _)
    · have hmax : max best (ab (max α best) β t) = best := max_eq_left (le_of_eq hc.symm)
      rw [hmax] at hα ⊢
      exact le_trans (hB hα) (le_max_left _ _)
    · have hmax : max best (ab (max α best) β t) = best := max_eq_left (le_of_lt hc)
      rw [hmax] at hα ⊢
      exact le_trans (hB hα) (le_max_left _ _)
  | .cons t ts, α, β, best, gB => by
    intro hB hα
    simp only [abMaxGo, mmMaxT] at hα ⊢
    have hb2 : α < max best (ab (max α best) β t) →
        max best (ab (max α best) β t) ≤ max gB (mmval t) := by
      intro hα2
      rcases lt_trichotomy best (ab (max α best) β t) with hc | hc | hc
      · have hmax : max best (ab (max α best) β t) = ab (max α best) β t :=
          max_eq_right (le_of_lt hc)
        rw [hmax] at hα2 ⊢
        have hup : max α best < ab (max α best) β t := by
          rw [max_lt_iff]
          exact ⟨hα2, hc⟩
        exact le_trans ((ab_bounds t (max α best) β).2 hup) (le_max_right _ _)
      · have hmax : max best (ab (max α best) β t) = best := max_eq_left (le_of_eq hc.symm)
        rw [hmax] at hα2 ⊢
        exact le_trans (hB hα2) (le_max_left _ _)
      · have hmax : max best (ab (max α best) β t) = best := max_eq_left (le_of_lt hc)
        rw [hmax] at hα2 ⊢
        exact le_trans (hB hα2) (le_max_left _ _)
    by_cases hprune : β ≤ max best (ab (max α best) β t)
    · rw [if_pos hprune] at hα ⊢
      refine le_trans (hb2 hα) ?_
      exact max_le_max (le_refl _) (le_max_left _ _)
    · rw [if_neg hprune] at hα ⊢
      have hrw : max (max α best) (max best (ab (max α best) β t))
          = max α (max best (ab (max α best) β t)) := by
        rw [max_assoc]
        rw [max_comm best (max best (ab (max α best) β t))]
        rw [max_eq_left (le_max_left best (ab (max α best) β t))]
      rw [hrw] at hα ⊢
      have hres := abMaxGo_ub ts α β (max best (ab (max α best) β t))
        (max gB (mmval t)) hb2 hα
      refine le_trans hres ?_
      rw [max_assoc]

theorem abMinT_bounds : ∀ (cs : GTrees) (α β : GV),
    (abMinT α β cs < β → mmMinT cs ≤ abMinT α β cs)
    ∧ (α < abMinT α β cs → abMinT α β cs ≤ mmMinT cs)
  | .one t, α, β => by
    simp only [abMinT, mmMinT]
    exact ab_bounds t α β
  | .cons t ts, α, β => by
    simp only [abMinT, mmMinT]
    by_cases hprune : ab α β t ≤ α
    · rw [if_pos hprune]
      constructor
      · intro hβ
        exact le_trans (min_le_left _ _) ((ab_bounds t α β).1 hβ)
      · intro hα
        exact absurd (lt_of_lt_of_le hα hprune) (lt_irrefl _)
    · rw [if_neg hprune]
      have hαv : α < ab α β t := lt_of_not_le hprune
      have hvmm : ab α β t ≤ mmval t := (ab_bounds t α β).2 hαv
      have hub := abMinGo_ub2 ts α (min β (ab α β t)) (ab α β t)
      constructor
      · intro hβ
        exact abMinGo_lb2 ts α β (ab α β t) (mmval t)
          (fun h => (ab_bounds t α β).1 h) hβ
      · intro hα2
        refine le_min ?_ (hub.2 hα2)
        exact le_trans hub.1 hvmm

theorem abMinGo_ub2 : ∀ (ts : GTrees) (α β best : GV),
    abMinGo α β best ts ≤ best
    ∧ (α < abMinGo α β best ts → abMinGo α β best ts ≤ mmMinT ts)
  | .one t, α, β, best => by
    simp only [abMinGo, mmMinT]
    refine ⟨min_le_left _ _, ?_⟩
    intro hα
    have hw : α < ab α β t := lt_of_lt_of_le hα (min_le_right _ _)
    exact le_trans (min_le_right _ _) ((ab_bounds t α β).2 hw)
  | .cons t ts, α, β, best => by
    simp only [abMinGo, mmMinT]
    by_cases hprune : min best (ab α β t) ≤ α
    · rw [if_pos hprune]
      constructor
      · exact min_le_left _ _
      · intro hα
        exact absurd (lt_of_lt_of_le hα hprune) (lt_irrefl _)
    · rw [if_neg hprune]
      have hαb2 : α < min best (ab α β t) := lt_of_not_le hprune
      have hαw : α < ab α β t := lt_of_lt_of_le hαb2 (min_le_right _ _)
      have hub := abMinGo_ub2 ts α (min β (min best (ab α β t))) (min best (ab α β t))
      constructor
      · exact le_trans hub.1 (min_le_left best (ab α β t))
      · intro hα2
        refine le_min ?_ (hub.2 hα2)
        refine le_trans ?_ ((ab_bounds t α β).2 hαw)
        exact le_trans hub.1 (min_le_right best _)

theorem abMinGo_lb2 : ∀ (ts : GTrees) (α β best gB : GV),
    (best < β → gB ≤ best) →
    abMinGo α (min β best) best ts < β →
    min gB (mmMinT ts) ≤ abMinGo α (min β best) best ts
  | .one t, α, β, best, gB => by
    intro hB hβ
    simp only [abMinGo, mmMinT] at hβ ⊢
    rcases lt_trichotomy (ab α (min β best) t) best with hc | hc | hc
    · have hmin : min best (ab α (min β best) t) = ab α (min β best) t :=
        min_eq_right (le_of_lt hc)
      rw [hmin] at hβ ⊢
      have hdown : ab α (min β best) t < min β best := by
        rw [lt_min_iff]
        exact ⟨hβ, hc⟩
      exact le_trans (min_le_right _ _) ((ab_bounds t α (min β best)).1 hdown)
    · have hmin : min best (ab α (min β best) t) = best := min_eq_left (le_of_eq hc.symm)
      rw [hmin] at hβ ⊢
      exact le_trans (min_le_left _ _) (hB hβ)
    · have hmin : min best (ab α (min β best) t) = best := min_eq_left (le_of_lt hc)
      rw [hmin] at hβ ⊢
      exact le_trans (min_le_left _ _) (hB hβ)
  | .cons t ts, α, β, best, gB => by
    intro hB hβ
    simp only [abMinGo, mmMinT] at hβ ⊢
    have hb2 : min best (ab α (min β best) t) < β →
        min gB (mmval t) ≤ min best (ab α (min β best) t) := by
      intro hβ2
      rcases lt_trichotomy (ab α (min β best) t) best with hc | hc | hc
      · have hmin : min best (ab α (min β best) t) = ab α (min β best) t :=
          min_eq_right (le_of_lt hc)
        rw [hmin] at hβ2 ⊢
        have hdown : ab α (min β best) t < min β best := by
          rw [lt_min_iff]
          exact ⟨hβ2, hc⟩
        exact le_trans (min_le_right _ _) ((ab_bounds t α (min β best)).1 hdown)
      · have hmin : min best (ab α (min β best) t) = best := min_eq_left (le_of_eq hc.symm)
        rw [hmin] at hβ2 ⊢
        exact le_trans (min_le_left _ _) (hB hβ2)
      · have hmin : min best (ab α (min β best) t) = best := min_eq_left (le_of_lt hc)
        rw [hmin] at hβ2 ⊢
        exact le_trans (min_le_left _ _) (hB hβ2)
    by_cases hprune : min best (ab α (min β best) t) ≤ α
    · rw [if_pos hprune] at hβ ⊢
      refine le_trans ?_ (hb2 hβ)
      exact min_le_min (le_refl _) (min_le_left _ _)
    · rw [if_neg hprune] at hβ ⊢
      have hrw : min (min β best) (min best (ab α (min β best) t))
          = min β (min best (ab α (min β best) t)) := by
        rw [min_assoc]
        rw [min_comm best (min best (ab α (min β best) t))]
        rw [min_eq_left (min_le_left best (ab α (min β best) t))]
      rw [hrw] at hβ ⊢
      have hres := abMinGo_lb2 ts α β (min best (ab α (min β best) t))
        (min gB (mmval t)) hb2 hβ
      refine le_trans ?_ hres
      rw [min_assoc]
end

/-- With the full window `(-inf, +inf)`, fail-soft alpha-beta computes
the exact minimax value. -/
theorem ab_root_exact (t : GTree) : ab ⊥ ⊤ t = mmval t := by
  have hfin := ab_isFin t ⊥ ⊤
  have h2 := (ab_bounds t ⊥ ⊤).2 hfin.1
  have h1 := (ab_bounds t ⊥ ⊤).1 hfin.2
  exact le_antisymm h2 h1

/-- The exact-value variant for any window around the true value is not
needed: the root loop always searches child `i+1` with
`alpha = best value so far`, `beta = +inf`. -/
theorem ab_child_step (t : GTree) (v : GV) (hv : isFin v) :
    (v < ab v ⊤ t → ab v ⊤ t = mmval t)
    ∧ (ab v ⊤ t ≤ v → mmval t ≤ ab v ⊤ t) := by
  have hfin := ab_isFin t v ⊤
  constructor
  · intro hlt
    have hub := (ab_bounds t v ⊤).2 hlt
    have hlb := (ab_bounds t v ⊤).1 (lt_of_le_of_lt hub (mm_isFin t).2)
    exact le_antisymm hub hlb
  · intro hle
    exact (ab_bounds t v ⊤).1 (lt_of_le_of_lt hle hv.2)

def mmPickC (a : A) (v : GV) (c : Nat) : List (A × GTree) → (A × GV) × Nat
  | [] => ((a, v), c)
  | (b, t) :: rest =>
    if v < mmval t then mmPickC b (mmval t) (c + cnt t) rest
    else mmPickC a v (c + cnt t) rest

def abPickC (a : A) (v : GV) (c : Nat) : List (A × GTree) → (A × GV) × Nat
  | [] => ((a, v), c)
  | (b, t) :: rest =>
    if v < ab v ⊤ t then abPickC b (ab v ⊤ t) (c + abCnt v ⊤ t) rest
    else abPickC a v (c + abCnt v ⊤ t) rest

/-- Modelled from the spec: `MinimaxSearchAgent.pick_action`
(`src/lab2/game_algorithms.py`, lines 160-174, body unimplemented):
evaluate every child subtree by full minimax to the depth limit,
counting every node visited, and keep the first action whose value
strictly improves on the best so far. -/
def minimaxRoot (ps : List (A × GTree)) : Option (A × GV) × Nat :=
  match ps with
  | [] => (none, 1)
  | (a, t) :: rest =>
    let r := mmPickC a (mmval t) (1 + cnt t) rest
    (some r.1, r.2)

/-- Modelled from the spec: `AlphaBetaSearchAgent.pick_action`
(`src/lab2/game_algorithms.py`, lines 205-223, body unimplemented):
like minimax but with fail-soft alpha-beta pruning; at the root the
alpha bound is the best exact value found so far and beta stays
`+inf`. -/
def alphaBetaRoot (ps : List (A × GTree)) : Option (A × GV) × Nat :=
  match ps with
  | [] => (none, 1)
  | (a, t) :: rest =>
    let r := abPickC a (ab ⊥ ⊤ t) (1 + abCnt ⊥ ⊤ t) rest
    (some r.1, r.2)

theorem pickC_eq (A : Type) : ∀ (rest : List (A × GTree)) (a : A) (v : GV)
    (c1 c2 : Nat), isFin v → c1 ≤ c2 →
    (abPickC a v c1 rest).1 = (mmPickC a v c2 rest).1
    ∧ (abPickC a v c1 rest).2 ≤ (mmPickC a v c2 rest).2 := by
  intro rest
  induction rest with
  | nil =>
    intro a v c1 c2 hv hc
    exact ⟨rfl, hc⟩
  | cons p rest ih =>
    intro a v c1 c2 hv hc
    obtain ⟨b, t⟩ := p
    simp only [abPickC, mmPickC]
    have hcnt : c1 + abCnt v ⊤ t ≤ c2 + cnt t :=
      Nat.add_le_add hc (abCnt_le t v ⊤)
    by_cases hlt : v < ab v ⊤ t
    · have hexact : ab v ⊤ t = mmval t := (ab_child_step t v hv).1 hlt
      rw [if_pos hlt]
      rw [if_pos (hexact ▸ hlt)]
      rw [hexact]
      exact ih b (mmval t) _ _ (mm_isFin t) hcnt
    · have hle : ab v ⊤ t ≤ v := le_of_not_lt hlt
      have hmm : mmval t ≤ ab v ⊤ t := (ab_child_step t v hv).2 hle
      have hnlt : ¬ v < mmval t := not_lt_of_le (le_trans hmm hle)
      rw [if_neg hlt, if_neg hnlt]
      exact ih a v _ _ hv hcnt

theorem root_eq (A : Type) (ps : List (A × GTree)) :
    (alphaBetaRoot ps).1 = (minimaxRoot ps).1
    ∧ (alphaBetaRoot ps).2 ≤ (minimaxRoot ps).2 := by
  cases ps with
  | nil => exact ⟨rfl, le_refl _⟩
  | cons p rest =>
    obtain ⟨a, t⟩ := p
    simp only [alphaBetaRoot, minimaxRoot]
    have hcnt : 1 + abCnt ⊥ ⊤ t ≤ 1 + cnt t :=
      Nat.add_le_add_left (abCnt_le t ⊥ ⊤) 1
    have h := pickC_eq A rest a (mmval t) (1 + abCnt ⊥ ⊤ t) (1 + cnt t)
      (mm_isFin t) hcnt
    rw [ab_root_exact t]
    constructor
    · exact congrArg Option.some h.1
    · exact h.2

/-- A two-player game from the agent's point of view, as the game
search framework presents it (`src/lab2/gamesearch_problem.py`):
endgame test, legal actions in order, transition, whether the current
player is the searching agent (`state.current_player_index ==
self.player_index`), and the caller-supplied evaluation function from
the agent's perspective. -/
structure Game (S A : Type) where
  isEnd : S → Bool
  actions : S → List A
  next : S → A → S
  myTurn : S → Bool
  evalFn : S → Int

def toGTrees : GTree → List GTree → GTrees
  | t, [] => .one t
  | t, u :: us => .cons t (toGTrees u us)

/-- The depth-limited game tree under a state: endgame states,
states at the depth limit and states with no legal action become
leaves carrying the evaluation-function value. -/
def buildT (g : Game S A) : Nat → S → GTree
  | 0, s => .leaf (g.evalFn s)
  | d + 1, s =>
    if g.isEnd s then .leaf (g.evalFn s)
    else
      match (g.actions s).map (fun a => buildT g d (g.next s a)) with
      | [] => .leaf (g.evalFn s)
      | t :: ts => .node (g.myTurn s) (toGTrees t ts)

/-- Modelled from the spec: `MinimaxSearchAgent.pick_action` at a state
with depth limit `d` searches each action's subtree to depth `d - 1`. -/
def minimaxPickAction (g : Game S A) (d : Nat) (s : S) : Option (A × GV) × Nat :=
  minimaxRoot ((g.actions s).map (fun a => (a, buildT g (d - 1) (g.next s a))))

/-- Modelled from the spec: `AlphaBetaSearchAgent.pick_action`. -/
def alphaBetaPickAction (g : Game S A) (d : Nat) (s : S) : Option (A × GV) × Nat :=
  alphaBetaRoot ((g.actions s).map (fun a => (a, buildT g (d - 1) (g.next s a))))

/-- **C1.**  For every game, game state, depth limit and evaluation
function, `AlphaBetaSearchAgent.pick_action` and
`MinimaxSearchAgent.pick_action` return the identical (action, value)
pair, and alpha-beta's node counter (`total_nodes`) is at most
minimax's. -/
theorem alphabeta_matches_minimax (S A : Type) (g : Game S A) (d : Nat) (s : S) :
    (alphaBetaPickAction g d s).1 = (minimaxPickAction g d s).1
    ∧ (alphaBetaPickAction g d s).2 ≤ (minimaxPickAction g d s).2 :=
  root_eq A ((g.actions s).map (fun a => (a, buildT g (d - 1) (g.next s a))))

